import Mathlib

/-!
Verification of the cn-tree core of `src/src/cn/cn_tree_internal.h` (hse).

The repository fragment under `src/` is a header: it declares the data
structures (`struct rmlock`, `struct cn_khashmap`, `struct cn_kle_cache`,
`struct cn_tree`, `struct cn_tree_node`) and the operations
(`cn_tree_find_node`, `cn_tree_create_node`, `rmlock_rlock`,
`rmlock_runlock`, ...) but contains no function bodies.  The data model
below mirrors the header; every behavioral definition is modelled from the
specification (spec.md sections 4-5) and carries a doc comment saying so.

Machine integers (`u32`, `u64`, `u8`) are modelled as `Nat`: every counter
in scope (generation counters, reader counts, allocation counters) is
monotonically bounded by the number of operations performed, so overflow
semantics never distinguish the model from the code on any trace we reason
about.
-/

/-! ### ScalableRWLock (`struct rmlock`, header lines 36-57) -/

/-- `RMLOCK_MAX`, from the source (`#define RMLOCK_MAX (128)`). -/
def RMLOCK_MAX : Nat := 128

/-- State of a `struct rmlock`.

`rm_bktv` holds each bucket's reader-reference count (`rm_rwcnt` of
`struct rmlock_bkt`); the vector is statically sized at `RMLOCK_MAX + 1`
slots, as in the source declaration `rm_bktv[RMLOCK_MAX + 1]`.
Modelled from the spec: the writer acquires every bucket's exclusive lock
in a fixed ascending order and releases in reverse order, so the set of
exclusively held buckets is always a prefix `[0, rm_wheld)`; we record
that prefix length instead of a per-bucket exclusive bit. -/
structure rmlock where
  rm_writer : Bool
  rm_bktmax : Nat
  rm_bktv : List Nat
  rm_wheld : Nat
deriving DecidableEq, Repr

/-- Modelled from the spec: lock construction ("the lock owns a fixed
vector of B buckets (a compile-time/construction-time bound, e.g. 128)").
The in-use bucket count is clamped to `[1, RMLOCK_MAX]`; the bucket
vector itself always has `RMLOCK_MAX + 1` slots as in the source. -/
def rmlock_init (n : Nat) : rmlock :=
  { rm_writer := false
    rm_bktmax := max 1 (min n RMLOCK_MAX)
    rm_bktv := List.replicate (RMLOCK_MAX + 1) 0
    rm_wheld := 0 }

/-- Increment the reader-reference count of bucket `i`. -/
def rm_bump (l : rmlock) (i : Nat) : rmlock :=
  { l with rm_bktv := l.rm_bktv.set i (l.rm_bktv.getD i 0 + 1) }

/-- Modelled from the spec: the read path of the missing `rmlock_rlock`
body ("select one bucket using a cheap, uniform, thread/call-local
selector; acquire that bucket's shared lock; the returned Token remembers
which bucket was taken so release targets the same bucket").  `sel` is
the selector outcome; the chosen bucket is `sel % rm_bktmax`.  Returns
`none` when the caller would block (the bucket is exclusively held by the
writer), otherwise the new state and the cookie (bucket index). -/
def rmlock_rlock (l : rmlock) (sel : Nat) : Option (rmlock × Nat) :=
  let i := sel % l.rm_bktmax
  if i < l.rm_wheld then none
  else some (rm_bump l i, i)

/-- Modelled from the spec: the missing `rmlock_runlock` body releases the
shared lock on the bucket named by the cookie, dropping that bucket's
reader-reference count. -/
def rmlock_runlock (l : rmlock) (cookie : Nat) : rmlock :=
  { l with rm_bktv := l.rm_bktv.set cookie (l.rm_bktv.getD cookie 0 - 1) }

/-- Atomic events of the lock protocol.  Read acquire/release are the two
operations above; the write side is modelled from the spec as its three
phases: claim the `rm_writer` flag by compare-and-exchange, lock buckets
one at a time in ascending order, and the reverse for release. -/
inductive RmEv where
  | rlock (sel : Nat)
  | runlock (cookie : Nat)
  | wflag
  | wlock
  | wunlock
  | wclear
deriving DecidableEq, Repr

/-- Modelled from the spec: one atomic step of the lock protocol.
`none` means the event is not enabled (the caller blocks, or a CAS
fails): a blocked acquisition simply has not happened yet, so it
contributes no state change. -/
def rm_step (l : rmlock) : RmEv → Option rmlock
  | .rlock sel => (rmlock_rlock l sel).map Prod.fst
  | .runlock c =>
      if c < l.rm_bktmax ∧ 0 < l.rm_bktv.getD c 0 then some (rmlock_runlock l c) else none
  | .wflag => if l.rm_writer then none else some { l with rm_writer := true }
  | .wlock =>
      if l.rm_writer ∧ l.rm_wheld < l.rm_bktmax ∧ l.rm_bktv.getD l.rm_wheld 0 = 0 then
        some { l with rm_wheld := l.rm_wheld + 1 }
      else none
  | .wunlock =>
      if l.rm_writer ∧ 0 < l.rm_wheld then some { l with rm_wheld := l.rm_wheld - 1 } else none
  | .wclear =>
      if l.rm_writer ∧ l.rm_wheld = 0 then some { l with rm_writer := false } else none

/-- Run a sequence of protocol events; disabled events are skipped. -/
def rm_run (l : rmlock) (evs : List RmEv) : rmlock :=
  evs.foldl (fun s e => (rm_step s e).getD s) l

/-- The writer holds the write lock (write critical section): the flag is
set and every bucket's exclusive lock is held. -/
def rm_writeCS (l : rmlock) : Prop :=
  l.rm_writer = true ∧ l.rm_wheld = l.rm_bktmax

instance (l : rmlock) : Decidable (rm_writeCS l) := by
  unfold rm_writeCS; infer_instance

/-- No reader is inside a read critical section: every in-use bucket's
reader-reference count is zero. -/
def rm_noreaders (l : rmlock) : Prop :=
  ∀ i, i < l.rm_bktmax → l.rm_bktv.getD i 0 = 0

instance (l : rmlock) : Decidable (rm_noreaders l) := by
  unfold rm_noreaders; infer_instance

/-- Protocol invariant: the bucket vector keeps its static size, the
in-use bucket count is within `[1, RMLOCK_MAX]`, the exclusively-held
prefix is within the in-use buckets, no buckets are exclusively held
without the writer flag, and an exclusively held bucket has no readers. -/
def rm_inv (l : rmlock) : Prop :=
  l.rm_bktv.length = RMLOCK_MAX + 1 ∧
  1 ≤ l.rm_bktmax ∧
  l.rm_bktmax ≤ RMLOCK_MAX ∧
  l.rm_wheld ≤ l.rm_bktmax ∧
  (l.rm_writer = false → l.rm_wheld = 0) ∧
  (∀ i, i < l.rm_wheld → l.rm_bktv.getD i 0 = 0)

theorem rm_inv_init (n : Nat) : rm_inv (rmlock_init n) := by
  refine ⟨?_, ?_, ?_, ?_, ?_, ?_⟩
  · show (List.replicate (RMLOCK_MAX + 1) 0).length = RMLOCK_MAX + 1
    simp
  · show 1 ≤ max 1 (min n RMLOCK_MAX)
    omega
  · show max 1 (min n RMLOCK_MAX) ≤ RMLOCK_MAX
    have h : RMLOCK_MAX = 128 := rfl
    omega
  · show (0 : Nat) ≤ max 1 (min n RMLOCK_MAX)
    exact Nat.zero_le _
  · intro _
    rfl
  · intro i hi
    exact absurd hi (Nat.not_lt_zero i)

theorem getD_set_self (l : List Nat) (i : Nat) (v : Nat) (h : i < l.length) :
    (l.set i v).getD i 0 = v := by
  simp [List.getD_eq_getElem?_getD, List.getElem?_set_self, h]

theorem getD_set_ne (l : List Nat) (i j : Nat) (v : Nat) (h : i ≠ j) :
    (l.set i v).getD j 0 = l.getD j 0 := by
  simp [List.getD_eq_getElem?_getD, List.getElem?_set_ne h]

theorem rmlock_rlock_blocked (l : rmlock) (sel : Nat)
    (h : sel % l.rm_bktmax < l.rm_wheld) : rmlock_rlock l sel = none := by
  unfold rmlock_rlock
  exact if_pos h

theorem rmlock_rlock_open (l : rmlock) (sel : Nat)
    (h : ¬ sel % l.rm_bktmax < l.rm_wheld) :
    rmlock_rlock l sel = some (rm_bump l (sel % l.rm_bktmax), sel % l.rm_bktmax) := by
  unfold rmlock_rlock
  exact if_neg h

theorem rm_inv_step (l : rmlock) (e : RmEv) (hinv : rm_inv l) :
    rm_inv ((rm_step l e).getD l) := by
  obtain ⟨hlen, hb1, hb2, hw, hwf, hz⟩ := hinv
  cases e with
  | rlock sel =>
      by_cases hblk : sel % l.rm_bktmax < l.rm_wheld
      · rw [show rm_step l (.rlock sel) = none from by
          simp only [rm_step]; rw [rmlock_rlock_blocked l sel hblk]; rfl]
        exact ⟨hlen, hb1, hb2, hw, hwf, hz⟩
      · rw [show rm_step l (.rlock sel) = some (rm_bump l (sel % l.rm_bktmax)) from by
          simp only [rm_step]; rw [rmlock_rlock_open l sel hblk]; rfl]
        refine ⟨?_, hb1, hb2, hw, hwf, ?_⟩
        · show (l.rm_bktv.set (sel % l.rm_bktmax) _).length = RMLOCK_MAX + 1
          simpa using hlen
        · intro i hi
          have hi' : i < l.rm_wheld := hi
          show (l.rm_bktv.set (sel % l.rm_bktmax) _).getD i 0 = 0
          rw [getD_set_ne]
          · exact hz i hi'
          · omega
  | runlock c =>
      by_cases hc : c < l.rm_bktmax ∧ 0 < l.rm_bktv.getD c 0
      · rw [show rm_step l (.runlock c) = some (rmlock_runlock l c) from by
          simp only [rm_step]; exact if_pos hc]
        refine ⟨?_, hb1, hb2, hw, hwf, ?_⟩
        · show (l.rm_bktv.set c _).length = RMLOCK_MAX + 1
          simpa using hlen
        · intro i hi
          show (l.rm_bktv.set c _).getD i 0 = 0
          by_cases hic : c = i
          · subst hic
            have hcl : c < l.rm_bktv.length := by omega
            rw [getD_set_self _ _ _ hcl]
            have := hz c hi
            omega
          · rw [getD_set_ne _ _ _ _ hic]
            exact hz i hi
      · rw [show rm_step l (.runlock c) = none from by
          simp only [rm_step]; exact if_neg hc]
        exact ⟨hlen, hb1, hb2, hw, hwf, hz⟩
  | wflag =>
      by_cases hwr : l.rm_writer = true
      · rw [show rm_step l .wflag = none from by
          simp only [rm_step]; rw [hwr]; rfl]
        exact ⟨hlen, hb1, hb2, hw, hwf, hz⟩
      · rw [show rm_step l .wflag = some { l with rm_writer := true } from by
          simp only [rm_step]; rw [Bool.eq_false_iff.mpr hwr]; rfl]
        exact ⟨hlen, hb1, hb2, hw, fun hf => Bool.noConfusion hf, hz⟩
  | wlock =>
      by_cases hc : l.rm_writer = true ∧ l.rm_wheld < l.rm_bktmax ∧ l.rm_bktv.getD l.rm_wheld 0 = 0
      · rw [show rm_step l .wlock = some { l with rm_wheld := l.rm_wheld + 1 } from by
          simp only [rm_step]; exact if_pos hc]
        refine ⟨hlen, hb1, hb2, ?_, ?_, ?_⟩
        · show l.rm_wheld + 1 ≤ l.rm_bktmax
          omega
        · intro hf
          rw [show ({ l with rm_wheld := l.rm_wheld + 1 } : rmlock).rm_writer = l.rm_writer
              from rfl] at hf
          rw [hc.1] at hf
          cases hf
        · intro i hi
          have hi' : i < l.rm_wheld + 1 := hi
          rcases Nat.lt_succ_iff_lt_or_eq.mp hi' with hlt | heq
          · exact hz i hlt
          · subst heq
            exact hc.2.2
      · rw [show rm_step l .wlock = none from by
          simp only [rm_step]; exact if_neg hc]
        exact ⟨hlen, hb1, hb2, hw, hwf, hz⟩
  | wunlock =>
      by_cases hc : l.rm_writer = true ∧ 0 < l.rm_wheld
      · rw [show rm_step l .wunlock = some { l with rm_wheld := l.rm_wheld - 1 } from by
          simp only [rm_step]; exact if_pos hc]
        refine ⟨hlen, hb1, hb2, ?_, ?_, ?_⟩
        · show l.rm_wheld - 1 ≤ l.rm_bktmax
          omega
        · intro hf
          rw [show ({ l with rm_wheld := l.rm_wheld - 1 } : rmlock).rm_writer = l.rm_writer
              from rfl] at hf
          rw [hc.1] at hf
          cases hf
        · intro i hi
          have hi' : i < l.rm_wheld - 1 := hi
          exact hz i (by omega)
      · rw [show rm_step l .wunlock = none from by
          simp only [rm_step]; exact if_neg hc]
        exact ⟨hlen, hb1, hb2, hw, hwf, hz⟩
  | wclear =>
      by_cases hc : l.rm_writer = true ∧ l.rm_wheld = 0
      · rw [show rm_step l .wclear = some { l with rm_writer := false } from by
          simp only [rm_step]; exact if_pos hc]
        exact ⟨hlen, hb1, hb2, hw, fun _ => hc.2, hz⟩
      · rw [show rm_step l .wclear = none from by
          simp only [rm_step]; exact if_neg hc]
        exact ⟨hlen, hb1, hb2, hw, hwf, hz⟩

theorem rm_inv_run (l : rmlock) (evs : List RmEv) (hinv : rm_inv l) :
    rm_inv (rm_run l evs) := by
  induction evs generalizing l with
  | nil => exact hinv
  | cons e evs ih =>
      exact ih _ (rm_inv_step l e hinv)

instance (l : rmlock) : Decidable (rm_inv l) := by
  unfold rm_inv; infer_instance

theorem rm_mutex_of_inv (l : rmlock) (hinv : rm_inv l) (h : rm_writeCS l) :
    rm_noreaders l ∧ ∀ sel, rmlock_rlock l sel = none := by
  obtain ⟨hlen, hb1, hb2, hw, hwf, hz⟩ := hinv
  obtain ⟨hwr, hweq⟩ := h
  constructor
  · intro i hi
    exact hz i (by omega)
  · intro sel
    apply rmlock_rlock_blocked
    have hm : sel % l.rm_bktmax < l.rm_bktmax := Nat.mod_lt _ (by omega)
    omega

/-- C1: for every sequence of lock-protocol events starting from a fresh
lock, whenever the writer holds the write lock (flag set and every
bucket's exclusive lock held), no bucket carries a read reference — no
read critical section overlaps the write critical section — and a reader
cannot begin: every read acquisition blocks while the write lock is held. -/
theorem c1_rmlock_mutual_exclusion (n : Nat) (evs : List RmEv)
    (h : rm_writeCS (rm_run (rmlock_init n) evs)) :
    rm_noreaders (rm_run (rmlock_init n) evs) ∧
    ∀ sel, rmlock_rlock (rm_run (rmlock_init n) evs) sel = none :=
  rm_mutex_of_inv _ (rm_inv_run _ evs (rm_inv_init n)) h

theorem c1_rmlock_mutual_exclusion_witness :
    rm_writeCS (rm_run (rmlock_init 2) [RmEv.wflag, RmEv.wlock, RmEv.wlock]) ∧
    rm_noreaders (rm_run (rmlock_init 2) [RmEv.wflag, RmEv.wlock, RmEv.wlock]) ∧
    rmlock_rlock (rm_run (rmlock_init 2) [RmEv.wflag, RmEv.wlock, RmEv.wlock]) 7 = none := by
  have h : rm_writeCS (rm_run (rmlock_init 2) [RmEv.wflag, RmEv.wlock, RmEv.wlock]) := by
    decide
  exact ⟨h, (c1_rmlock_mutual_exclusion 2 _ h).1, (c1_rmlock_mutual_exclusion 2 _ h).2 7⟩

theorem rm_roundtrip_core (l : rmlock) (i : Nat) (hc : i < l.rm_bktv.length) :
    (rm_bump l i).rm_bktv.getD i 0 = l.rm_bktv.getD i 0 + 1 ∧
    (∀ j, j ≠ i → (rm_bump l i).rm_bktv.getD j 0 = l.rm_bktv.getD j 0) ∧
    (∀ j, (rmlock_runlock (rm_bump l i) i).rm_bktv.getD j 0 = l.rm_bktv.getD j 0) ∧
    (rmlock_runlock (rm_bump l i) i).rm_writer = l.rm_writer ∧
    (rmlock_runlock (rm_bump l i) i).rm_bktmax = l.rm_bktmax ∧
    (rmlock_runlock (rm_bump l i) i).rm_wheld = l.rm_wheld := by
  have hbump : (rm_bump l i).rm_bktv.getD i 0 = l.rm_bktv.getD i 0 + 1 := by
    show (l.rm_bktv.set i (l.rm_bktv.getD i 0 + 1)).getD i 0 = _
    rw [getD_set_self _ _ _ hc]
  refine ⟨hbump, ?_, ?_, rfl, rfl, rfl⟩
  · intro j hj
    show (l.rm_bktv.set i (l.rm_bktv.getD i 0 + 1)).getD j 0 = _
    exact getD_set_ne _ _ _ _ (fun hij => hj hij.symm)
  · intro j
    show ((rm_bump l i).rm_bktv.set i ((rm_bump l i).rm_bktv.getD i 0 - 1)).getD j 0 = _
    by_cases hij : i = j
    · subst hij
      rw [getD_set_self _ _ _ (by simpa [rm_bump] using hc), hbump]
      omega
    · rw [getD_set_ne _ _ _ _ hij]
      show (l.rm_bktv.set i (l.rm_bktv.getD i 0 + 1)).getD j 0 = _
      exact getD_set_ne _ _ _ _ hij

/-- C8: a successful read acquisition returns the cookie naming the
selected bucket (`sel % rm_bktmax`), records one extra read reference on
exactly that bucket, and releasing with that cookie restores every
bucket's read-reference count (and all other lock state) to its value
before the acquire. -/
theorem c8_rlock_cookie_roundtrip (l : rmlock) (sel : Nat) (l' : rmlock) (c : Nat)
    (hinv : rm_inv l) (h : rmlock_rlock l sel = some (l', c)) :
    c = sel % l.rm_bktmax ∧
    l'.rm_bktv.getD c 0 = l.rm_bktv.getD c 0 + 1 ∧
    (∀ j, j ≠ c → l'.rm_bktv.getD j 0 = l.rm_bktv.getD j 0) ∧
    (∀ j, (rmlock_runlock l' c).rm_bktv.getD j 0 = l.rm_bktv.getD j 0) ∧
    (rmlock_runlock l' c).rm_writer = l.rm_writer ∧
    (rmlock_runlock l' c).rm_bktmax = l.rm_bktmax ∧
    (rmlock_runlock l' c).rm_wheld = l.rm_wheld := by
  obtain ⟨hlen, hb1, hb2, hw, hwf, hz⟩ := hinv
  by_cases hblk : sel % l.rm_bktmax < l.rm_wheld
  · rw [rmlock_rlock_blocked l sel hblk] at h
    cases h
  · rw [rmlock_rlock_open l sel hblk] at h
    simp only [Option.some.injEq, Prod.mk.injEq] at h
    obtain ⟨h1, h2⟩ := h
    subst h1
    subst h2
    have hc : sel % l.rm_bktmax < l.rm_bktv.length := by
      have hm : sel % l.rm_bktmax < l.rm_bktmax := Nat.mod_lt _ (by omega)
      omega
    exact ⟨rfl, (rm_roundtrip_core l _ hc).1, (rm_roundtrip_core l _ hc).2.1,
      (rm_roundtrip_core l _ hc).2.2.1, (rm_roundtrip_core l _ hc).2.2.2.1,
      (rm_roundtrip_core l _ hc).2.2.2.2.1, (rm_roundtrip_core l _ hc).2.2.2.2.2⟩

theorem c8_rlock_cookie_roundtrip_witness :
    rm_inv (rmlock_init 2) ∧
    rmlock_rlock (rmlock_init 2) 3 = some (rm_bump (rmlock_init 2) 1, 1) ∧
    1 = 3 % (rmlock_init 2).rm_bktmax ∧
    (rm_bump (rmlock_init 2) 1).rm_bktv.getD 1 0 = (rmlock_init 2).rm_bktv.getD 1 0 + 1 ∧
    ∀ j, (rmlock_runlock (rm_bump (rmlock_init 2) 1) 1).rm_bktv.getD j 0 =
      (rmlock_init 2).rm_bktv.getD j 0 := by
  have hinv : rm_inv (rmlock_init 2) := rm_inv_init 2
  have h : rmlock_rlock (rmlock_init 2) 3 = some (rm_bump (rmlock_init 2) 1, 1) := by decide
  have hc := c8_rlock_cookie_roundtrip (rmlock_init 2) 3 (rm_bump (rmlock_init 2) 1) 1 hinv h
  exact ⟨hinv, h, hc.1, hc.2.1, hc.2.2.2.1⟩

/-- C10: starting from a fresh lock, after any event sequence the bucket
vector still has its static `RMLOCK_MAX + 1 = 129` slots, the in-use
bucket count `rm_bktmax` never exceeds `RMLOCK_MAX + 1`, the exclusive
(write-side) prefix stays within `rm_bktmax`, and the bucket index chosen
by a read acquisition — hence the cookie later used by the release — is
strictly below `rm_bktmax`, so all bucket-array indexing stays in bounds. -/
theorem c10_rmlock_bucket_bounds (n : Nat) (evs : List RmEv) (sel : Nat) :
    (rm_run (rmlock_init n) evs).rm_bktv.length = RMLOCK_MAX + 1 ∧
    (rm_run (rmlock_init n) evs).rm_bktmax ≤ RMLOCK_MAX + 1 ∧
    (rm_run (rmlock_init n) evs).rm_wheld ≤ (rm_run (rmlock_init n) evs).rm_bktmax ∧
    sel % (rm_run (rmlock_init n) evs).rm_bktmax < (rm_run (rmlock_init n) evs).rm_bktmax ∧
    (∀ l' c, rmlock_rlock (rm_run (rmlock_init n) evs) sel = some (l', c) →
      c < (rm_run (rmlock_init n) evs).rm_bktmax) := by
  obtain ⟨hlen, hb1, hb2, hw, hwf, hz⟩ := rm_inv_run (rmlock_init n) evs (rm_inv_init n)
  have hm : sel % (rm_run (rmlock_init n) evs).rm_bktmax <
      (rm_run (rmlock_init n) evs).rm_bktmax := Nat.mod_lt _ (by omega)
  refine ⟨hlen, by omega, hw, hm, ?_⟩
  intro l' c h
  by_cases hblk : sel % (rm_run (rmlock_init n) evs).rm_bktmax <
      (rm_run (rmlock_init n) evs).rm_wheld
  · rw [rmlock_rlock_blocked _ sel hblk] at h
    cases h
  · rw [rmlock_rlock_open _ sel hblk] at h
    simp only [Option.some.injEq, Prod.mk.injEq] at h
    obtain ⟨h1, h2⟩ := h
    omega

theorem c10_rmlock_bucket_bounds_witness :
    rmlock_rlock (rmlock_init 3) 5 = some (rm_bump (rmlock_init 3) 2, 2) ∧
    (rm_run (rmlock_init 3) []).rm_bktv.length = RMLOCK_MAX + 1 ∧
    2 < (rm_run (rmlock_init 3) []).rm_bktmax := by
  have h : rmlock_rlock (rmlock_init 3) 5 = some (rm_bump (rmlock_init 3) 2, 2) := by decide
  have hc := c10_rmlock_bucket_bounds 3 [] 5
  exact ⟨h, hc.1, hc.2.2.2.2 (rm_bump (rmlock_init 3) 2) 2 h⟩

/-! ### HashRouter (`struct cn_khashmap`, header lines 84-98) -/

/-- State of a `struct cn_khashmap` (`khm_gen` is the current generation,
`khm_gen_committed` the committed generation, `khm_mapv` the mapping
table).  The source's `khm_lock` serializes updaters and is represented
by updates being a single serialized sequence. -/
structure cn_khashmap where
  khm_gen : Nat
  khm_gen_committed : Nat
  khm_mapv : List Nat
deriving DecidableEq, Repr

/-- A fresh hash map: both generations zero. -/
def khm_init (mapv0 : List Nat) : cn_khashmap :=
  { khm_gen := 0, khm_gen_committed := 0, khm_mapv := mapv0 }

/-- Modelled from the spec: one complete `update` (spec 4.3) — `current`
bumped first, then the mapping array mutated, then `committed` bumped. -/
def khm_update (m : cn_khashmap) (u : List Nat) : cn_khashmap :=
  { khm_gen := m.khm_gen + 1, khm_gen_committed := m.khm_gen_committed + 1, khm_mapv := u }

/-- Modelled from the spec: the state a racing reader can observe at
atomic tick `t` while the serialized updates `us` are applied.  Each
update occupies three ticks: tick 1 bumps `current`, tick 2 writes the
mapping array, tick 3 bumps `committed`. -/
def khm_at (m : cn_khashmap) (us : List (List Nat)) (t : Nat) : cn_khashmap :=
  match us with
  | [] => m
  | u :: us' =>
    if t = 0 then m
    else if t = 1 then { m with khm_gen := m.khm_gen + 1 }
    else if t = 2 then { m with khm_gen := m.khm_gen + 1, khm_mapv := u }
    else khm_at (khm_update m u) us' (t - 3)

/-- The mapping contents belonging to generation `g`: the initial table
after zero updates, the `g`-th update's table afterwards. -/
def khm_mapv_of_gen (m0 : List Nat) : List (List Nat) → Nat → List Nat
  | _, 0 => m0
  | [], _ + 1 => m0
  | u :: us', g + 1 => khm_mapv_of_gen u us' g

theorem khm_at_nil (m : cn_khashmap) (t : Nat) : khm_at m [] t = m := rfl

theorem khm_at_zero (m : cn_khashmap) (us : List (List Nat)) : khm_at m us 0 = m := by
  cases us <;> simp [khm_at]

theorem khm_at_one (m : cn_khashmap) (u : List Nat) (us' : List (List Nat)) :
    khm_at m (u :: us') 1 = { m with khm_gen := m.khm_gen + 1 } := by
  simp [khm_at]

theorem khm_at_two (m : cn_khashmap) (u : List Nat) (us' : List (List Nat)) :
    khm_at m (u :: us') 2 = { m with khm_gen := m.khm_gen + 1, khm_mapv := u } := by
  simp [khm_at]

theorem khm_at_succ3 (m : cn_khashmap) (u : List Nat) (us' : List (List Nat)) (s : Nat) :
    khm_at m (u :: us') (s + 3) = khm_at (khm_update m u) us' s := by
  simp [khm_at]

theorem khm_committed_le_succ (us : List (List Nat)) : ∀ (m : cn_khashmap) (t : Nat),
    (khm_at m us t).khm_gen_committed ≤ (khm_at m us (t + 1)).khm_gen_committed := by
  induction us with
  | nil =>
      intro m t
      rw [khm_at_nil, khm_at_nil]
  | cons u us' ih =>
      intro m t
      match t with
      | 0 =>
          rw [khm_at_zero, khm_at_one]
      | 1 =>
          rw [khm_at_one, khm_at_two]
      | 2 =>
          rw [khm_at_two, show (2 + 1 : Nat) = 0 + 3 from rfl, khm_at_succ3, khm_at_zero]
          exact Nat.le_succ _
      | s + 3 =>
          rw [khm_at_succ3, show s + 3 + 1 = (s + 1) + 3 from rfl, khm_at_succ3]
          exact ih _ _

theorem khm_gen_le_succ (us : List (List Nat)) : ∀ (m : cn_khashmap) (t : Nat),
    (khm_at m us t).khm_gen ≤ (khm_at m us (t + 1)).khm_gen := by
  induction us with
  | nil =>
      intro m t
      rw [khm_at_nil, khm_at_nil]
  | cons u us' ih =>
      intro m t
      match t with
      | 0 =>
          rw [khm_at_zero, khm_at_one]
          exact Nat.le_succ _
      | 1 =>
          rw [khm_at_one, khm_at_two]
      | 2 =>
          rw [khm_at_two, show (2 + 1 : Nat) = 0 + 3 from rfl, khm_at_succ3, khm_at_zero]
          exact Nat.le_refl _
      | s + 3 =>
          rw [khm_at_succ3, show s + 3 + 1 = (s + 1) + 3 from rfl, khm_at_succ3]
          exact ih _ _

theorem khm_committed_mono (m : cn_khashmap) (us : List (List Nat)) (t t' : Nat)
    (h : t ≤ t') :
    (khm_at m us t).khm_gen_committed ≤ (khm_at m us t').khm_gen_committed := by
  induction h with
  | refl => exact Nat.le_refl _
  | step h ih => exact Nat.le_trans ih (khm_committed_le_succ us m _)

theorem khm_gen_mono (m : cn_khashmap) (us : List (List Nat)) (t t' : Nat)
    (h : t ≤ t') : (khm_at m us t).khm_gen ≤ (khm_at m us t').khm_gen := by
  induction h with
  | refl => exact Nat.le_refl _
  | step h ih => exact Nat.le_trans ih (khm_gen_le_succ us m _)

theorem khm_committed_ge_start (us : List (List Nat)) : ∀ (m : cn_khashmap) (t : Nat),
    m.khm_gen_committed ≤ (khm_at m us t).khm_gen_committed := by
  induction us with
  | nil =>
      intro m t
      rw [khm_at_nil]
  | cons u us' ih =>
      intro m t
      match t with
      | 0 => rw [khm_at_zero]
      | 1 => rw [khm_at_one]
      | 2 => rw [khm_at_two]
      | s + 3 =>
          rw [khm_at_succ3]
          have h1 : (khm_update m u).khm_gen_committed = m.khm_gen_committed + 1 := rfl
          have h2 := ih (khm_update m u) s
          omega

theorem khm_c_le_g (us : List (List Nat)) : ∀ (m : cn_khashmap) (t : Nat),
    m.khm_gen_committed ≤ m.khm_gen →
    (khm_at m us t).khm_gen_committed ≤ (khm_at m us t).khm_gen := by
  induction us with
  | nil =>
      intro m t h
      rw [khm_at_nil]
      exact h
  | cons u us' ih =>
      intro m t h
      match t with
      | 0 => rw [khm_at_zero]; exact h
      | 1 =>
          rw [khm_at_one]
          show m.khm_gen_committed ≤ m.khm_gen + 1
          omega
      | 2 =>
          rw [khm_at_two]
          show m.khm_gen_committed ≤ m.khm_gen + 1
          omega
      | s + 3 =>
          rw [khm_at_succ3]
          refine ih _ _ ?_
          show m.khm_gen_committed + 1 ≤ m.khm_gen + 1
          omega

theorem khm_quiescent_mapv (us : List (List Nat)) : ∀ (m : cn_khashmap) (t : Nat),
    m.khm_gen_committed = m.khm_gen →
    (khm_at m us t).khm_gen_committed = (khm_at m us t).khm_gen →
    (khm_at m us t).khm_mapv =
      khm_mapv_of_gen m.khm_mapv us
        ((khm_at m us t).khm_gen_committed - m.khm_gen_committed) := by
  induction us with
  | nil =>
      intro m t _ _
      rw [khm_at_nil]
      simp [khm_mapv_of_gen]
  | cons u us' ih =>
      intro m t hq hqt
      match t with
      | 0 =>
          rw [khm_at_zero] at hqt ⊢
          simp [khm_mapv_of_gen]
      | 1 =>
          rw [khm_at_one] at hqt
          have h1 : m.khm_gen_committed = m.khm_gen + 1 := hqt
          omega
      | 2 =>
          rw [khm_at_two] at hqt
          have h1 : m.khm_gen_committed = m.khm_gen + 1 := hqt
          omega
      | s + 3 =>
          rw [khm_at_succ3] at hqt ⊢
          have hq' : (khm_update m u).khm_gen_committed = (khm_update m u).khm_gen := by
            show m.khm_gen_committed + 1 = m.khm_gen + 1
            omega
          have hge : (khm_update m u).khm_gen_committed ≤
              (khm_at (khm_update m u) us' s).khm_gen_committed :=
            khm_committed_ge_start us' _ s
          have hrec := ih (khm_update m u) s hq' hqt
          rw [hrec]
          have hsub : (khm_at (khm_update m u) us' s).khm_gen_committed - m.khm_gen_committed =
              ((khm_at (khm_update m u) us' s).khm_gen_committed -
               (khm_update m u).khm_gen_committed) + 1 := by
            have h2 : (khm_update m u).khm_gen_committed = m.khm_gen_committed + 1 := rfl
            omega
          rw [hsub]
          rfl

/-- C2 counterexample: under the reader validation exactly as specified
(read `committed` before consulting the mapping, re-read `committed`
after, accept when unchanged), a reader can start after generation 0 is
committed, observe `committed = 0` both times (`t1 = 0`, `t3 = 2`), and
yet read the mapping at `t2 = 2` — after the in-flight update to
generation 1 has already mutated the array but before it bumped
`committed` — returning generation-1 values while observing
`committed = 0`. -/
theorem c2_khashmap_generation_cex :
    (khm_at (khm_init [0, 0, 0, 0]) [[0, 0, 0, 2]] 0).khm_gen_committed =
      (khm_at (khm_init [0, 0, 0, 0]) [[0, 0, 0, 2]] 2).khm_gen_committed ∧
    (0 : Nat) ≤ 2 ∧
    (khm_at (khm_init [0, 0, 0, 0]) [[0, 0, 0, 2]] 2).khm_mapv ≠
      khm_mapv_of_gen [0, 0, 0, 0] [[0, 0, 0, 2]]
        ((khm_at (khm_init [0, 0, 0, 0]) [[0, 0, 0, 2]] 0).khm_gen_committed) := by
  decide

/-- C2 (amended): across every update, including its intermediate
states, `committed ≤ current`; and a reader that snapshots
`committed = g` at `t1` and — in addition to the spec's re-check of
`committed` — validates that the *current* generation still equals `g`
after its mapping read (`t3`), is guaranteed that the mapping values it
read at `t2` are exactly the generation-`g` values, never a mixture of
generations `g` and `g+1` and never a partially-applied update. -/
theorem c2_khashmap_generation (mapv0 : List Nat) (us : List (List Nat)) (t1 t2 t3 : Nat)
    (h12 : t1 ≤ t2) (h23 : t2 ≤ t3)
    (hv : (khm_at (khm_init mapv0) us t1).khm_gen_committed =
          (khm_at (khm_init mapv0) us t3).khm_gen) :
    (∀ t, (khm_at (khm_init mapv0) us t).khm_gen_committed ≤
          (khm_at (khm_init mapv0) us t).khm_gen) ∧
    (khm_at (khm_init mapv0) us t2).khm_gen_committed =
      (khm_at (khm_init mapv0) us t1).khm_gen_committed ∧
    (khm_at (khm_init mapv0) us t2).khm_mapv =
      khm_mapv_of_gen mapv0 us ((khm_at (khm_init mapv0) us t1).khm_gen_committed) := by
  have hcg : ∀ t, (khm_at (khm_init mapv0) us t).khm_gen_committed ≤
      (khm_at (khm_init mapv0) us t).khm_gen :=
    fun t => khm_c_le_g us (khm_init mapv0) t (Nat.le_refl 0)
  have hc12 : (khm_at (khm_init mapv0) us t1).khm_gen_committed ≤
      (khm_at (khm_init mapv0) us t2).khm_gen_committed :=
    khm_committed_mono _ us t1 t2 h12
  have hg23 : (khm_at (khm_init mapv0) us t2).khm_gen ≤
      (khm_at (khm_init mapv0) us t3).khm_gen :=
    khm_gen_mono _ us t2 t3 h23
  have hsandwich : (khm_at (khm_init mapv0) us t2).khm_gen_committed =
      (khm_at (khm_init mapv0) us t2).khm_gen := by
    have := hcg t2
    omega
  have hceq : (khm_at (khm_init mapv0) us t2).khm_gen_committed =
      (khm_at (khm_init mapv0) us t1).khm_gen_committed := by
    have := hcg t2
    omega
  have hmap := khm_quiescent_mapv us (khm_init mapv0) t2 rfl hsandwich
  refine ⟨hcg, hceq, ?_⟩
  rw [hmap]
  have hz : (khm_init mapv0).khm_gen_committed = 0 := rfl
  rw [hz, Nat.sub_zero, hceq]
  rfl

theorem c2_khashmap_generation_witness :
    (3 : Nat) ≤ 3 ∧
    (khm_at (khm_init [0, 0, 0, 0]) [[0, 0, 0, 2]] 3).khm_gen_committed =
      (khm_at (khm_init [0, 0, 0, 0]) [[0, 0, 0, 2]] 3).khm_gen ∧
    (khm_at (khm_init [0, 0, 0, 0]) [[0, 0, 0, 2]] 3).khm_mapv =
      khm_mapv_of_gen [0, 0, 0, 0] [[0, 0, 0, 2]]
        ((khm_at (khm_init [0, 0, 0, 0]) [[0, 0, 0, 2]] 3).khm_gen_committed) ∧
    (khm_at (khm_init [0, 0, 0, 0]) [[0, 0, 0, 2]] 7).khm_gen_committed ≤
      (khm_at (khm_init [0, 0, 0, 0]) [[0, 0, 0, 2]] 7).khm_gen := by
  have h := c2_khashmap_generation [0, 0, 0, 0] [[0, 0, 0, 2]] 3 3 3
    (Nat.le_refl 3) (Nat.le_refl 3) (by decide)
  exact ⟨Nat.le_refl 3, by decide, h.2.2, h.1 7⟩

/-! ### Error kinds (spec section 7) and the node compacting flag -/

/-- The recoverable/fatal error kinds of spec section 7 (the header's
`merr_t` is an opaque error scalar; the spec names the error cases). -/
inductive merr where
  | invalidLocation
  | parentMissing
  | allocationFailure
  | duplicateCompaction
  | routingInconsistent
deriving DecidableEq, Repr

/-- Modelled from the spec: one attempt to start a structural compaction
on a node — an atomic compare-and-exchange on the node's `tn_compacting`
flag.  Returns the attempt's outcome and the new flag value; the
operation is total (never blocks): a lost race fails fast with
`duplicateCompaction`. -/
def tn_compacting_claim (flag : Bool) : Except merr Unit × Bool :=
  if flag then (.error .duplicateCompaction, flag) else (.ok (), true)

/-- Run `k` consecutive claim attempts (any serialization of `k`
concurrent compare-and-exchange attempts is some such sequence, and all
attempts are symmetric), collecting each attempt's outcome. -/
def comp_attempts (flag : Bool) : Nat → List (Except merr Unit) × Bool
  | 0 => ([], flag)
  | k + 1 =>
      let r := tn_compacting_claim flag
      let rest := comp_attempts r.2 k
      (r.1 :: rest.1, rest.2)

/-- Claim/release operations on a node's compacting flag; `release` is
performed only by the current holder (enabled only when one is active). -/
inductive CompOp where
  | claim
  | release
deriving DecidableEq, Repr

/-- Modelled from the spec: flag state paired with the number of
structural compactions currently active on the node. -/
def comp_state_step : Bool × Nat → CompOp → Bool × Nat
  | (flag, active), .claim => if flag then (flag, active) else (true, active + 1)
  | (flag, active), .release => if 0 < active then (false, active - 1) else (flag, active)

def comp_run (ops : List CompOp) : Bool × Nat :=
  ops.foldl comp_state_step (false, 0)

theorem comp_attempts_held (k : Nat) :
    comp_attempts true k = (List.replicate k (.error .duplicateCompaction), true) := by
  induction k with
  | zero => rfl
  | succ k ih => simp [comp_attempts, tn_compacting_claim, ih, List.replicate_succ]

theorem comp_inv_step (s : Bool × Nat) (op : CompOp)
    (h : s.2 ≤ 1 ∧ (s.1 = true ↔ s.2 = 1)) :
    (comp_state_step s op).2 ≤ 1 ∧
    ((comp_state_step s op).1 = true ↔ (comp_state_step s op).2 = 1) := by
  obtain ⟨flag, active⟩ := s
  obtain ⟨h1, h2⟩ := h
  cases op with
  | claim =>
      cases flag with
      | true =>
          rw [show comp_state_step (true, active) CompOp.claim = (true, active) from by
            simp [comp_state_step]]
          exact ⟨h1, h2⟩
      | false =>
          have h2' : ¬ active = 1 := by
            intro hx
            exact Bool.noConfusion (h2.mpr hx)
          have ha : active = 0 := by omega
          subst ha
          rw [show comp_state_step (false, 0) CompOp.claim = (true, 1) from by
            simp [comp_state_step]]
          exact ⟨Nat.le_refl 1, by simp⟩
  | release =>
      by_cases ha : 0 < active
      · rw [show comp_state_step (flag, active) CompOp.release = (false, active - 1) from by
          simp [comp_state_step, ha]]
        refine ⟨by omega, ?_, ?_⟩
        · intro hx
          exact Bool.noConfusion hx
        · intro hx
          exfalso
          have hx' : active - 1 = 1 := hx
          omega
      · rw [show comp_state_step (flag, active) CompOp.release = (flag, active) from by
          simp [comp_state_step, ha]]
        exact ⟨h1, h2⟩

theorem comp_inv_run (ops : List CompOp) :
    (comp_run ops).2 ≤ 1 ∧ ((comp_run ops).1 = true ↔ (comp_run ops).2 = 1) := by
  suffices h : ∀ s, s.2 ≤ 1 ∧ (s.1 = true ↔ s.2 = 1) →
      (ops.foldl comp_state_step s).2 ≤ 1 ∧
      ((ops.foldl comp_state_step s).1 = true ↔ (ops.foldl comp_state_step s).2 = 1) by
    exact h (false, 0) (by simp)
  induction ops with
  | nil => intro s hs; exact hs
  | cons op ops ih =>
      intro s hs
      exact ih _ (comp_inv_step s op hs)

/-- C6: of `k ≥ 1` serialized concurrent attempts to claim a node's
`tn_compacting` flag starting from an idle node, exactly the first
succeeds and the remaining `k - 1` all receive `duplicateCompaction`
(each attempt completes immediately — the claim operation is total, it
never blocks); and over any sequence of claim/release operations the
number of structural compactions active on the node never exceeds one. -/
theorem c6_compacting_flag_exclusive (k : Nat) (hk : 1 ≤ k) (ops : List CompOp) :
    (comp_attempts false k).1 =
      .ok () :: List.replicate (k - 1) (.error .duplicateCompaction) ∧
    (comp_attempts false k).2 = true ∧
    (comp_run ops).2 ≤ 1 := by
  obtain ⟨k, rfl⟩ : ∃ j, k = j + 1 := ⟨k - 1, by omega⟩
  refine ⟨?_, ?_, (comp_inv_run ops).1⟩
  · show (comp_attempts false (k + 1)).1 = _
    simp [comp_attempts, tn_compacting_claim, comp_attempts_held]
  · show (comp_attempts false (k + 1)).2 = true
    simp [comp_attempts, tn_compacting_claim, comp_attempts_held]

theorem c6_compacting_flag_exclusive_witness :
    (1 : Nat) ≤ 3 ∧
    (comp_attempts false 3).1 =
      .ok () :: List.replicate 2 (.error .duplicateCompaction) ∧
    (comp_run [CompOp.claim, CompOp.claim, CompOp.release, CompOp.claim]).2 ≤ 1 := by
  have h := c6_compacting_flag_exclusive 3 (by decide)
    [CompOp.claim, CompOp.claim, CompOp.release, CompOp.claim]
  exact ⟨by decide, h.1, h.2.2⟩

/-! ### Tree and TreeNode (`struct cn_tree`, `struct cn_tree_node`) -/

/-- `struct cn_node_loc`: the (level, offset) address of a node. -/
structure cn_node_loc where
  node_level : Nat
  node_offset : Nat
deriving DecidableEq, Repr

/-- Per-node sample statistics (`struct cn_node_stats`): key/value sample
counts, approximate cardinality, size estimate. -/
structure cn_node_stats where
  ns_keyc : Nat
  ns_kvsetc : Nat
  ns_cardc : Nat
  ns_size : Nat
deriving DecidableEq, Repr

def cn_node_stats.zero : cn_node_stats :=
  { ns_keyc := 0, ns_kvsetc := 0, ns_cardc := 0, ns_size := 0 }

/-- `struct cn_tree_node`: node identity (`tn_id` models the node's
stable allocation identity — in C, its address), its location `tn_loc`,
the kvset list `tn_kvset_list` (head = newest), statistics `tn_ns`,
child count `tn_childc` and the child vector `tn_childv` (a slot per
possible child, `none` where no child exists). -/
inductive cn_tree_node : Type where
  | mk (tn_id : Nat) (tn_loc : cn_node_loc) (tn_kvset_list : List Nat)
      (tn_ns : cn_node_stats) (tn_childc : Nat)
      (tn_childv : List (Option cn_tree_node)) : cn_tree_node

def cn_tree_node.tn_id : cn_tree_node → Nat
  | .mk i _ _ _ _ _ => i

def cn_tree_node.tn_loc : cn_tree_node → cn_node_loc
  | .mk _ loc _ _ _ _ => loc

def cn_tree_node.tn_kvset_list : cn_tree_node → List Nat
  | .mk _ _ kvs _ _ _ => kvs

def cn_tree_node.tn_ns : cn_tree_node → cn_node_stats
  | .mk _ _ _ ns _ _ => ns

def cn_tree_node.tn_childc : cn_tree_node → Nat
  | .mk _ _ _ _ cc _ => cc

def cn_tree_node.tn_childv : cn_tree_node → List (Option cn_tree_node)
  | .mk _ _ _ _ _ cv => cv

/-- Child slot lookup (`tn_childv[j]`, `none` when absent or out of range). -/
def cn_tree_node.getChild (n : cn_tree_node) (j : Nat) : Option cn_tree_node :=
  n.tn_childv.getD j none

/-- Replace the child in slot `j` (an in-place pointer update in C);
the other fields, including `tn_childc`, are untouched. -/
def cn_tree_node.withChild : cn_tree_node → Nat → cn_tree_node → cn_tree_node
  | .mk i loc kvs ns cc cv, j, c => .mk i loc kvs ns cc (cv.set j (some c))

/-- Link a new child into empty slot `j`, bumping `tn_childc`. -/
def cn_tree_node.linkChild : cn_tree_node → Nat → cn_tree_node → cn_tree_node
  | .mk i loc kvs ns cc cv, j, c => .mk i loc kvs ns (cc + 1) (cv.set j (some c))

/-- Number of occupied child slots. -/
def countSome (cv : List (Option cn_tree_node)) : Nat :=
  cv.countP (fun o => o.isSome)

/-- `struct cn_tree`: root node, fanout expressed as `ct_fanout_bits`,
`ct_fanout_mask`, depth limit `ct_depth_max`.  `ct_next_id` models the
node allocator's supply of fresh node identities. -/
structure cn_tree where
  ct_root : cn_tree_node
  ct_fanout_bits : Nat
  ct_fanout_mask : Nat
  ct_depth_max : Nat
  ct_next_id : Nat

/-- Tree fanout: `2 ^ ct_fanout_bits` (the header documents
`ct_fanout_bits` as "log base2 of tree fanout"). -/
def cn_tree.ct_fanout (t : cn_tree) : Nat := 2 ^ t.ct_fanout_bits

/-- Modelled from the spec: tree construction — the tree and its root
node are created together; the root has an empty kvset list, zeroed
statistics and no children; `ct_fanout_mask = fanout - 1`. -/
def cn_tree_create (fanout_bits depth_max : Nat) : cn_tree :=
  { ct_root := .mk 0 ⟨0, 0⟩ [] .zero 0 (List.replicate (2 ^ fanout_bits) none)
    ct_fanout_bits := fanout_bits
    ct_fanout_mask := 2 ^ fanout_bits - 1
    ct_depth_max := depth_max
    ct_next_id := 1 }

/-- Modelled from the spec: descent of `cn_tree_find_node` below a node.
A node at `(l+1, off)` is reached from level-0 by taking child
`off / f ^ l` first and recursing on `(l, off % f ^ l)`; equivalently the
child indices are the base-`f` digits of `off`, most significant first,
so the parent of `(l+1, off)` is `(l, off / f)` and the child slot is
`off % f`. -/
def cn_tree_findAux (f : Nat) : cn_tree_node → Nat → Nat → Option cn_tree_node
  | n, 0, _ => some n
  | n, l + 1, off =>
      match n.getChild (off / f ^ l) with
      | none => none
      | some c => cn_tree_findAux f c l (off % f ^ l)

/-- Modelled from the spec: `cn_tree_find_node` — "descends from root,
at each level selecting the child whose index equals the corresponding
location component; returns none if a position does not exist (not yet
created) or if location exceeds depth_max". -/
def cn_tree_find_node (t : cn_tree) (loc : cn_node_loc) : Option cn_tree_node :=
  if t.ct_depth_max < loc.node_level then none
  else cn_tree_findAux t.ct_fanout t.ct_root loc.node_level loc.node_offset

/-- Replace the node at path `(l, off)` below `n` by `r`, rebuilding the
path (this models the C code mutating the node in place: every node on
the path keeps its identity and fields, only the one child pointer chain
is updated). -/
def cn_tree_replaceAt (f : Nat) (r : cn_tree_node) : cn_tree_node → Nat → Nat → cn_tree_node
  | _, 0, _ => r
  | n, l + 1, off =>
      match n.getChild (off / f ^ l) with
      | none => n
      | some c => n.withChild (off / f ^ l) (cn_tree_replaceAt f r c l (off % f ^ l))

/-- Modelled from the spec: `cn_tree_create_node` — "validates
`level ≤ depth_max` and `offset < fanout^level`; allocates a new node,
links it under its parent (parent must already exist — nodes are created
top-down only), initializes empty kvset list and zeroed statistics;
returns an error if the parent does not exist, if `level` exceeds the
configured maximum, or on allocation failure".  `allocOk` is the
allocation oracle (`false` models allocator exhaustion).  The spec does
not address creating a node at a position that already exists; since
nodes are never destroyed or replaced, this is modelled as returning the
existing node unchanged.  At level 0 the root — created with the tree —
is returned. -/
def cn_tree_create_node (t : cn_tree) (allocOk : Bool) (node_level node_offset : Nat) :
    Except merr (cn_tree × cn_tree_node) :=
  if t.ct_depth_max < node_level then .error .invalidLocation
  else if t.ct_fanout ^ node_level ≤ node_offset then .error .invalidLocation
  else
    match node_level with
    | 0 => .ok (t, t.ct_root)
    | l + 1 =>
      match cn_tree_find_node t ⟨l, node_offset / t.ct_fanout⟩ with
      | none => .error .parentMissing
      | some parent =>
        match parent.getChild (node_offset % t.ct_fanout) with
        | some existing => .ok (t, existing)
        | none =>
          if allocOk then
            let nn : cn_tree_node := .mk t.ct_next_id ⟨l + 1, node_offset⟩ [] .zero 0
              (List.replicate t.ct_fanout none)
            .ok ({ t with
                    ct_root := cn_tree_replaceAt t.ct_fanout
                      (parent.linkChild (node_offset % t.ct_fanout) nn) t.ct_root l
                      (node_offset / t.ct_fanout)
                    ct_next_id := t.ct_next_id + 1 }, nn)
          else .error .allocationFailure

/-- `cn_node_stats_get`: copy out the node's statistics. -/
def cn_node_stats_get (n : cn_tree_node) : cn_node_stats := n.tn_ns

/-- `cn_node_isleaf`: a node with no children. -/
def cn_node_isleaf (n : cn_tree_node) : Bool := n.tn_childc = 0

/-- `cn_node_isroot`: the node at level 0. -/
def cn_node_isroot (n : cn_tree_node) : Bool := n.tn_loc.node_level = 0

/-- `cn_node_level`: the node's level. -/
def cn_node_level (n : cn_tree_node) : Nat := n.tn_loc.node_level

/-- Run a sequence of `cn_tree_create_node` calls (`allocOk`, level,
offset); a call that fails leaves the tree unchanged. -/
def cn_tree_runOps (t : cn_tree) (ops : List (Bool × Nat × Nat)) : cn_tree :=
  ops.foldl (fun s op =>
    match cn_tree_create_node s op.1 op.2.1 op.2.2 with
    | .ok p => p.1
    | .error _ => s) t

/-- Well-formedness: every reachable node's child vector has exactly
`fanout` slots and `tn_childc` counts its occupied slots. -/
def cn_treeWF (t : cn_tree) : Prop :=
  ∀ L o m, cn_tree_findAux t.ct_fanout t.ct_root L o = some m →
    m.tn_childv.length = t.ct_fanout ∧ m.tn_childc = countSome m.tn_childv

theorem getDo_len_le (l : List (Option cn_tree_node)) (i : Nat) (h : l.length ≤ i) :
    l.getD i none = none := by
  rw [List.getD_eq_getElem?_getD, List.getElem?_eq_none h]
  rfl

theorem getDo_set_self (l : List (Option cn_tree_node)) (i : Nat) (v : Option cn_tree_node)
    (h : i < l.length) : (l.set i v).getD i none = v := by
  simp [List.getD_eq_getElem?_getD, List.getElem?_set_self, h]

theorem getDo_set_ne (l : List (Option cn_tree_node)) (i j : Nat) (v : Option cn_tree_node)
    (h : i ≠ j) : (l.set i v).getD j none = l.getD j none := by
  simp [List.getD_eq_getElem?_getD, List.getElem?_set_ne h]

theorem getDo_replicate (k i : Nat) :
    (List.replicate k (none : Option cn_tree_node)).getD i none = none := by
  rcases Nat.lt_or_ge i k with h | h
  · rw [List.getD_eq_getElem?_getD, List.getElem?_replicate_of_lt h]
    rfl
  · exact getDo_len_le _ _ (by simpa using h)

theorem withChild_childv (n : cn_tree_node) (j : Nat) (c : cn_tree_node) :
    (n.withChild j c).tn_childv = n.tn_childv.set j (some c) := by
  cases n
  rfl

theorem withChild_fields (n : cn_tree_node) (j : Nat) (c : cn_tree_node) :
    (n.withChild j c).tn_id = n.tn_id ∧ (n.withChild j c).tn_loc = n.tn_loc ∧
    (n.withChild j c).tn_kvset_list = n.tn_kvset_list ∧ (n.withChild j c).tn_ns = n.tn_ns ∧
    (n.withChild j c).tn_childc = n.tn_childc := by
  cases n
  exact ⟨rfl, rfl, rfl, rfl, rfl⟩

theorem linkChild_childv (n : cn_tree_node) (j : Nat) (c : cn_tree_node) :
    (n.linkChild j c).tn_childv = n.tn_childv.set j (some c) := by
  cases n
  rfl

theorem linkChild_fields (n : cn_tree_node) (j : Nat) (c : cn_tree_node) :
    (n.linkChild j c).tn_id = n.tn_id ∧ (n.linkChild j c).tn_loc = n.tn_loc ∧
    (n.linkChild j c).tn_kvset_list = n.tn_kvset_list ∧ (n.linkChild j c).tn_ns = n.tn_ns ∧
    (n.linkChild j c).tn_childc = n.tn_childc + 1 := by
  cases n
  exact ⟨rfl, rfl, rfl, rfl, rfl⟩

theorem getChild_some_lt (n : cn_tree_node) (j : Nat) (c : cn_tree_node)
    (h : n.getChild j = some c) : j < n.tn_childv.length := by
  by_contra hle
  rw [cn_tree_node.getChild, getDo_len_le _ _ (by omega)] at h
  cases h

theorem getChild_withChild_self (n : cn_tree_node) (j : Nat) (c : cn_tree_node)
    (h : j < n.tn_childv.length) : (n.withChild j c).getChild j = some c := by
  show (n.withChild j c).tn_childv.getD j none = some c
  rw [withChild_childv]
  exact getDo_set_self _ _ _ h

theorem getChild_withChild_ne (n : cn_tree_node) (j j' : Nat) (c : cn_tree_node)
    (h : j ≠ j') : (n.withChild j c).getChild j' = n.getChild j' := by
  show (n.withChild j c).tn_childv.getD j' none = n.tn_childv.getD j' none
  rw [withChild_childv]
  exact getDo_set_ne _ _ _ _ h

theorem getChild_linkChild_self (n : cn_tree_node) (j : Nat) (c : cn_tree_node)
    (h : j < n.tn_childv.length) : (n.linkChild j c).getChild j = some c := by
  show (n.linkChild j c).tn_childv.getD j none = some c
  rw [linkChild_childv]
  exact getDo_set_self _ _ _ h

theorem getChild_linkChild_ne (n : cn_tree_node) (j j' : Nat) (c : cn_tree_node)
    (h : j ≠ j') : (n.linkChild j c).getChild j' = n.getChild j' := by
  show (n.linkChild j c).tn_childv.getD j' none = n.tn_childv.getD j' none
  rw [linkChild_childv]
  exact getDo_set_ne _ _ _ _ h

theorem countSome_le_length (cv : List (Option cn_tree_node)) : countSome cv ≤ cv.length :=
  List.countP_le_length _

theorem countSome_replicate (k : Nat) :
    countSome (List.replicate k (none : Option cn_tree_node)) = 0 := by
  induction k with
  | zero => rfl
  | succ k ih =>
      rw [List.replicate_succ]
      show (List.countP _ (none :: List.replicate k none)) = 0
      rw [List.countP_cons]
      simp only [countSome] at ih
      simp [ih]

theorem countSome_set_some_of_none :
    ∀ (cv : List (Option cn_tree_node)) (d : Nat) (x : cn_tree_node),
      cv.getD d none = none → d < cv.length →
      countSome (cv.set d (some x)) = countSome cv + 1 := by
  intro cv
  induction cv with
  | nil =>
      intro d x _ hd
      exact absurd hd (by simp)
  | cons a tl ih =>
      intro d x h hd
      cases d with
      | zero =>
          have ha : a = none := by simpa using h
          subst ha
          show countSome (some x :: tl) = countSome (none :: tl) + 1
          simp [countSome, List.countP_cons]
      | succ d =>
          have h' : tl.getD d none = none := by simpa using h
          have hd' : d < tl.length := by simpa using hd
          show countSome (a :: tl.set d (some x)) = countSome (a :: tl) + 1
          simp only [countSome, List.countP_cons]
          rw [show (tl.set d (some x)).countP (fun o => o.isSome) =
            tl.countP (fun o => o.isSome) + 1 from ih d x h' hd']
          omega

theorem countSome_set_some_of_some :
    ∀ (cv : List (Option cn_tree_node)) (d : Nat) (x c : cn_tree_node),
      cv.getD d none = some c →
      countSome (cv.set d (some x)) = countSome cv := by
  intro cv
  induction cv with
  | nil =>
      intro d x c h
      rw [getDo_len_le _ _ (by simp)] at h
      cases h
  | cons a tl ih =>
      intro d x c h
      cases d with
      | zero =>
          have ha : a = some c := by simpa using h
          subst ha
          show countSome (some x :: tl) = countSome (some c :: tl)
          simp [countSome, List.countP_cons]
      | succ d =>
          have h' : tl.getD d none = some c := by simpa using h
          show countSome (a :: tl.set d (some x)) = countSome (a :: tl)
          simp only [countSome, List.countP_cons]
          rw [show (tl.set d (some x)).countP (fun o => o.isSome) =
            tl.countP (fun o => o.isSome) from ih d x c h']

theorem findAux_zero (f : Nat) (n : cn_tree_node) (off : Nat) :
    cn_tree_findAux f n 0 off = some n := rfl

theorem findAux_succ_none (f : Nat) (n : cn_tree_node) (l off : Nat)
    (hg : n.getChild (off / f ^ l) = none) :
    cn_tree_findAux f n (l + 1) off = none := by
  simp only [cn_tree_findAux, hg]

theorem findAux_succ_some (f : Nat) (n : cn_tree_node) (l off : Nat) (c : cn_tree_node)
    (hg : n.getChild (off / f ^ l) = some c) :
    cn_tree_findAux f n (l + 1) off = cn_tree_findAux f c l (off % f ^ l) := by
  simp only [cn_tree_findAux, hg]

theorem replaceAt_zero (f : Nat) (r n : cn_tree_node) (off : Nat) :
    cn_tree_replaceAt f r n 0 off = r := rfl

theorem replaceAt_succ_none (f : Nat) (r n : cn_tree_node) (l off : Nat)
    (hg : n.getChild (off / f ^ l) = none) :
    cn_tree_replaceAt f r n (l + 1) off = n := by
  simp only [cn_tree_replaceAt, hg]

theorem replaceAt_succ_some (f : Nat) (r n : cn_tree_node) (l off : Nat) (c : cn_tree_node)
    (hg : n.getChild (off / f ^ l) = some c) :
    cn_tree_replaceAt f r n (l + 1) off =
      n.withChild (off / f ^ l) (cn_tree_replaceAt f r c l (off % f ^ l)) := by
  simp only [cn_tree_replaceAt, hg]

theorem findAux_peel (f : Nat) (hf : 0 < f) :
    ∀ (l : Nat) (n : cn_tree_node) (off : Nat), off < f ^ (l + 1) →
    cn_tree_findAux f n (l + 1) off =
      (cn_tree_findAux f n l (off / f)).bind (fun p => p.getChild (off % f)) := by
  intro l
  induction l with
  | zero =>
      intro n off hoff
      have h3 : off % f = off := Nat.mod_eq_of_lt (by rwa [pow_one] at hoff)
      have h1 : off / f ^ 0 = off := by simp
      cases hg : n.getChild off with
      | none =>
          rw [findAux_succ_none f n 0 off (by rwa [h1]), findAux_zero]
          show none = n.getChild (off % f)
          rw [h3, hg]
      | some c =>
          rw [findAux_succ_some f n 0 off c (by rwa [h1]), findAux_zero]
          show some c = n.getChild (off % f)
          rw [h3, hg]
  | succ l ih =>
      intro n off hoff
      have hfl : 0 < f ^ (l + 1) := pow_pos hf _
      have hdd : (off / f) / f ^ l = off / f ^ (l + 1) := by
        rw [Nat.div_div_eq_div_mul, pow_succ']
      have hmd : (off % f ^ (l + 1)) / f = (off / f) % f ^ l := by
        rw [pow_succ']
        exact Nat.mod_mul_right_div_self off f (f ^ l)
      have hmm : (off % f ^ (l + 1)) % f = off % f :=
        Nat.mod_mod_of_dvd off (dvd_pow_self f (Nat.succ_ne_zero l))
      cases hg : n.getChild (off / f ^ (l + 1)) with
      | none =>
          rw [findAux_succ_none f n (l + 1) off hg,
            findAux_succ_none f n l (off / f) (by rwa [hdd])]
          rfl
      | some c =>
          rw [findAux_succ_some f n (l + 1) off c hg,
            findAux_succ_some f n l (off / f) c (by rwa [hdd])]
          rw [ih c (off % f ^ (l + 1)) (Nat.mod_lt _ hfl)]
          rw [hmd, hmm]

theorem findAux_replaceAt_self (f : Nat) (r : cn_tree_node) :
    ∀ (l : Nat) (n m : cn_tree_node) (off : Nat),
      cn_tree_findAux f n l off = some m →
      cn_tree_findAux f (cn_tree_replaceAt f r n l off) l off = some r := by
  intro l
  induction l with
  | zero =>
      intro n m off _
      rfl
  | succ l ih =>
      intro n m off h
      cases hg : n.getChild (off / f ^ l) with
      | none =>
          rw [findAux_succ_none f n l off hg] at h
          cases h
      | some c =>
          rw [findAux_succ_some f n l off c hg] at h
          rw [replaceAt_succ_some f r n l off c hg]
          have hlt : off / f ^ l < n.tn_childv.length := getChild_some_lt _ _ _ hg
          rw [findAux_succ_some f _ l off _ (getChild_withChild_self n (off / f ^ l)
            (cn_tree_replaceAt f r c l (off % f ^ l)) hlt)]
          exact ih _ _ _ h

theorem findAux_replace_preserve (f : Nat) (parent parent' : cn_tree_node)
    (hid : parent'.tn_id = parent.tn_id) (hloc : parent'.tn_loc = parent.tn_loc)
    (hkvs : parent'.tn_kvset_list = parent.tn_kvset_list) (hns : parent'.tn_ns = parent.tn_ns)
    (hpp : ∀ j c, parent.getChild j = some c → parent'.getChild j = some c) :
    ∀ (lp : Nat) (n : cn_tree_node) (op : Nat),
      cn_tree_findAux f n lp op = some parent →
      ∀ (L o : Nat) (m : cn_tree_node), cn_tree_findAux f n L o = some m →
      ∃ m', cn_tree_findAux f (cn_tree_replaceAt f parent' n lp op) L o = some m' ∧
        m'.tn_id = m.tn_id ∧ m'.tn_loc = m.tn_loc ∧
        m'.tn_kvset_list = m.tn_kvset_list ∧ m'.tn_ns = m.tn_ns := by
  intro lp
  induction lp with
  | zero =>
      intro n op hp L o m hm
      have hn : n = parent := Option.some.inj hp
      subst hn
      rw [replaceAt_zero]
      cases L with
      | zero =>
          have hmn : n = m := Option.some.inj hm
          subst hmn
          exact ⟨parent', findAux_zero f parent' o, hid, hloc, hkvs, hns⟩
      | succ l' =>
          cases hg : n.getChild (o / f ^ l') with
          | none =>
              rw [findAux_succ_none f n l' o hg] at hm
              cases hm
          | some c =>
              rw [findAux_succ_some f n l' o c hg] at hm
              refine ⟨m, ?_, rfl, rfl, rfl, rfl⟩
              rw [findAux_succ_some f parent' l' o c (hpp _ _ hg)]
              exact hm
  | succ lp ih =>
      intro n op hp L o m hm
      cases hgp : n.getChild (op / f ^ lp) with
      | none =>
          rw [findAux_succ_none f n lp op hgp] at hp
          cases hp
      | some cp =>
          rw [findAux_succ_some f n lp op cp hgp] at hp
          rw [replaceAt_succ_some f parent' n lp op cp hgp]
          cases L with
          | zero =>
              have hmn : n = m := Option.some.inj hm
              subst hmn
              obtain ⟨w1, w2, w3, w4, w5⟩ := withChild_fields n (op / f ^ lp)
                (cn_tree_replaceAt f parent' cp lp (op % f ^ lp))
              exact ⟨_, findAux_zero f _ o, w1, w2, w3, w4⟩
          | succ l' =>
              by_cases hdd : o / f ^ l' = op / f ^ lp
              · cases hg : n.getChild (o / f ^ l') with
                | none =>
                    rw [findAux_succ_none f n l' o hg] at hm
                    cases hm
                | some c' =>
                    rw [findAux_succ_some f n l' o c' hg] at hm
                    have hcc : c' = cp := by
                      rw [hdd] at hg
                      exact Option.some.inj (hg.symm.trans hgp)
                    subst hcc
                    have hlt : op / f ^ lp < n.tn_childv.length := getChild_some_lt _ _ _ hgp
                    have hgn : (n.withChild (op / f ^ lp)
                        (cn_tree_replaceAt f parent' c' lp (op % f ^ lp))).getChild (o / f ^ l') =
                        some (cn_tree_replaceAt f parent' c' lp (op % f ^ lp)) := by
                      rw [hdd]
                      exact getChild_withChild_self n _ _ hlt
                    rw [findAux_succ_some f _ l' o _ hgn]
                    exact ih c' (op % f ^ lp) hp l' (o % f ^ l') m hm
              · cases hg : n.getChild (o / f ^ l') with
                | none =>
                    rw [findAux_succ_none f n l' o hg] at hm
                    cases hm
                | some c' =>
                    rw [findAux_succ_some f n l' o c' hg] at hm
                    refine ⟨m, ?_, rfl, rfl, rfl, rfl⟩
                    have hgn : (n.withChild (op / f ^ lp)
                        (cn_tree_replaceAt f parent' cp lp (op % f ^ lp))).getChild (o / f ^ l') =
                        some c' := by
                      rw [getChild_withChild_ne n _ _ _ (fun he => hdd he.symm)]
                      exact hg
                    rw [findAux_succ_some f _ l' o c' hgn]
                    exact hm

theorem findAux_replace_back (f : Nat) (parent : cn_tree_node) (d : Nat) (nn : cn_tree_node)
    (hnone : parent.getChild d = none) (hd : d < parent.tn_childv.length)
    (hnn : ∀ j, nn.getChild j = none) :
    ∀ (lp : Nat) (n : cn_tree_node) (op : Nat),
      cn_tree_findAux f n lp op = some parent →
      ∀ (L o : Nat) (m' : cn_tree_node),
        cn_tree_findAux f (cn_tree_replaceAt f (parent.linkChild d nn) n lp op) L o = some m' →
        m' = nn ∨ ∃ m, cn_tree_findAux f n L o = some m ∧
          m'.tn_childv.length = m.tn_childv.length ∧
          (m'.tn_childc = m.tn_childc ∧ countSome m'.tn_childv = countSome m.tn_childv ∨
           m'.tn_childc = m.tn_childc + 1 ∧
             countSome m'.tn_childv = countSome m.tn_childv + 1) := by
  intro lp
  induction lp with
  | zero =>
      intro n op hp L o m' hm'
      have hn : n = parent := Option.some.inj hp
      subst hn
      rw [replaceAt_zero] at hm'
      cases L with
      | zero =>
          have heq : n.linkChild d nn = m' := Option.some.inj hm'
          subst heq
          right
          obtain ⟨w1, w2, w3, w4, w5⟩ := linkChild_fields n d nn
          refine ⟨n, findAux_zero f n o, ?_, Or.inr ⟨w5, ?_⟩⟩
          · rw [linkChild_childv]
            exact List.length_set ..
          · rw [linkChild_childv]
            exact countSome_set_some_of_none n.tn_childv d nn hnone hd
      | succ l' =>
          by_cases hdd : o / f ^ l' = d
          · have hgl : (n.linkChild d nn).getChild (o / f ^ l') = some nn := by
              rw [hdd]
              exact getChild_linkChild_self n d nn hd
            rw [findAux_succ_some f _ l' o nn hgl] at hm'
            cases l' with
            | zero =>
                left
                exact (Option.some.inj hm').symm
            | succ l'' =>
                rw [findAux_succ_none f nn l'' (o % f ^ (l'' + 1)) (hnn _)] at hm'
                cases hm'
          · have hgl : (n.linkChild d nn).getChild (o / f ^ l') = n.getChild (o / f ^ l') :=
              getChild_linkChild_ne n d (o / f ^ l') nn (fun he => hdd he.symm)
            cases hg : n.getChild (o / f ^ l') with
            | none =>
                rw [findAux_succ_none f _ l' o (hgl.trans hg)] at hm'
                cases hm'
            | some c =>
                rw [findAux_succ_some f _ l' o c (hgl.trans hg)] at hm'
                right
                refine ⟨m', ?_, rfl, Or.inl ⟨rfl, rfl⟩⟩
                rw [findAux_succ_some f n l' o c hg]
                exact hm'
  | succ lp ih =>
      intro n op hp L o m' hm'
      cases hgp : n.getChild (op / f ^ lp) with
      | none =>
          rw [findAux_succ_none f n lp op hgp] at hp
          cases hp
      | some cp =>
          rw [findAux_succ_some f n lp op cp hgp] at hp
          rw [replaceAt_succ_some f _ n lp op cp hgp] at hm'
          cases L with
          | zero =>
              have heq : n.withChild (op / f ^ lp)
                  (cn_tree_replaceAt f (parent.linkChild d nn) cp lp (op % f ^ lp)) = m' :=
                Option.some.inj hm'
              subst heq
              right
              obtain ⟨w1, w2, w3, w4, w5⟩ := withChild_fields n (op / f ^ lp)
                (cn_tree_replaceAt f (parent.linkChild d nn) cp lp (op % f ^ lp))
              refine ⟨n, findAux_zero f n o, ?_, Or.inl ⟨w5, ?_⟩⟩
              · rw [withChild_childv]
                exact List.length_set ..
              · rw [withChild_childv]
                exact countSome_set_some_of_some n.tn_childv (op / f ^ lp) _ cp hgp
          | succ l' =>
              by_cases hdd : o / f ^ l' = op / f ^ lp
              · have hlt : op / f ^ lp < n.tn_childv.length := getChild_some_lt _ _ _ hgp
                have hgn : (n.withChild (op / f ^ lp)
                    (cn_tree_replaceAt f (parent.linkChild d nn) cp lp (op % f ^ lp))).getChild
                      (o / f ^ l') =
                    some (cn_tree_replaceAt f (parent.linkChild d nn) cp lp (op % f ^ lp)) := by
                  rw [hdd]
                  exact getChild_withChild_self n _ _ hlt
                rw [findAux_succ_some f _ l' o _ hgn] at hm'
                rcases ih cp (op % f ^ lp) hp l' (o % f ^ l') m' hm' with h | ⟨m, hm, hrest⟩
                · exact Or.inl h
                · right
                  refine ⟨m, ?_, hrest⟩
                  have hgo : n.getChild (o / f ^ l') = some cp := by
                    rw [hdd]
                    exact hgp
                  rw [findAux_succ_some f n l' o cp hgo]
                  exact hm
              · have hgn : (n.withChild (op / f ^ lp)
                    (cn_tree_replaceAt f (parent.linkChild d nn) cp lp (op % f ^ lp))).getChild
                      (o / f ^ l') = n.getChild (o / f ^ l') :=
                  getChild_withChild_ne n _ _ _ (fun he => hdd he.symm)
                cases hg : n.getChild (o / f ^ l') with
                | none =>
                    rw [findAux_succ_none f _ l' o (hgn.trans hg)] at hm'
                    cases hm'
                | some c' =>
                    rw [findAux_succ_some f _ l' o c' (hgn.trans hg)] at hm'
                    right
                    refine ⟨m', ?_, rfl, Or.inl ⟨rfl, rfl⟩⟩
                    rw [findAux_succ_some f n l' o c' hg]
                    exact hm'

theorem create_node_bad_level (t : cn_tree) (a : Bool) (L o : Nat)
    (h : t.ct_depth_max < L) :
    cn_tree_create_node t a L o = .error .invalidLocation := by
  simp only [cn_tree_create_node, if_pos h]

theorem create_node_bad_offset (t : cn_tree) (a : Bool) (L o : Nat)
    (h1 : ¬ t.ct_depth_max < L) (h2 : t.ct_fanout ^ L ≤ o) :
    cn_tree_create_node t a L o = .error .invalidLocation := by
  simp only [cn_tree_create_node, if_neg h1, if_pos h2]

theorem create_node_zero (t : cn_tree) (a : Bool) (o : Nat)
    (h2 : ¬ t.ct_fanout ^ 0 ≤ o) :
    cn_tree_create_node t a 0 o = .ok (t, t.ct_root) := by
  simp only [cn_tree_create_node, if_neg (Nat.not_lt_zero t.ct_depth_max), if_neg h2]

theorem create_node_parent_missing (t : cn_tree) (a : Bool) (l o : Nat)
    (h1 : ¬ t.ct_depth_max < l + 1) (h2 : ¬ t.ct_fanout ^ (l + 1) ≤ o)
    (h3 : cn_tree_find_node t ⟨l, o / t.ct_fanout⟩ = none) :
    cn_tree_create_node t a (l + 1) o = .error .parentMissing := by
  simp only [cn_tree_create_node, if_neg h1, if_neg h2, h3]

theorem create_node_existing (t : cn_tree) (a : Bool) (l o : Nat)
    (parent ex : cn_tree_node)
    (h1 : ¬ t.ct_depth_max < l + 1) (h2 : ¬ t.ct_fanout ^ (l + 1) ≤ o)
    (h3 : cn_tree_find_node t ⟨l, o / t.ct_fanout⟩ = some parent)
    (h4 : parent.getChild (o % t.ct_fanout) = some ex) :
    cn_tree_create_node t a (l + 1) o = .ok (t, ex) := by
  simp only [cn_tree_create_node, if_neg h1, if_neg h2, h3, h4]

theorem create_node_alloc_fail (t : cn_tree) (l o : Nat) (parent : cn_tree_node)
    (h1 : ¬ t.ct_depth_max < l + 1) (h2 : ¬ t.ct_fanout ^ (l + 1) ≤ o)
    (h3 : cn_tree_find_node t ⟨l, o / t.ct_fanout⟩ = some parent)
    (h4 : parent.getChild (o % t.ct_fanout) = none) :
    cn_tree_create_node t false (l + 1) o = .error .allocationFailure := by
  simp only [cn_tree_create_node, if_neg h1, if_neg h2, h3, h4, Bool.false_eq_true, if_false]

theorem create_node_fresh (t : cn_tree) (l o : Nat) (parent : cn_tree_node)
    (h1 : ¬ t.ct_depth_max < l + 1) (h2 : ¬ t.ct_fanout ^ (l + 1) ≤ o)
    (h3 : cn_tree_find_node t ⟨l, o / t.ct_fanout⟩ = some parent)
    (h4 : parent.getChild (o % t.ct_fanout) = none) :
    cn_tree_create_node t true (l + 1) o =
      .ok ({ t with
              ct_root := cn_tree_replaceAt t.ct_fanout
                (parent.linkChild (o % t.ct_fanout)
                  (.mk t.ct_next_id ⟨l + 1, o⟩ [] .zero 0 (List.replicate t.ct_fanout none)))
                t.ct_root l (o / t.ct_fanout)
              ct_next_id := t.ct_next_id + 1 },
        .mk t.ct_next_id ⟨l + 1, o⟩ [] .zero 0 (List.replicate t.ct_fanout none)) := by
  simp only [cn_tree_create_node, if_neg h1, if_neg h2, h3, h4, if_true]

theorem create_node_cases (t : cn_tree) (a : Bool) (L o : Nat) (t' : cn_tree)
    (nn : cn_tree_node) (h : cn_tree_create_node t a L o = .ok (t', nn)) :
    ¬ t.ct_depth_max < L ∧ ¬ t.ct_fanout ^ L ≤ o ∧
    ((L = 0 ∧ t' = t ∧ nn = t.ct_root) ∨
     (∃ l parent, L = l + 1 ∧
        cn_tree_find_node t ⟨l, o / t.ct_fanout⟩ = some parent ∧
        parent.getChild (o % t.ct_fanout) = some nn ∧ t' = t) ∨
     (∃ l parent, L = l + 1 ∧ a = true ∧
        cn_tree_find_node t ⟨l, o / t.ct_fanout⟩ = some parent ∧
        parent.getChild (o % t.ct_fanout) = none ∧
        nn = .mk t.ct_next_id ⟨l + 1, o⟩ [] .zero 0 (List.replicate t.ct_fanout none) ∧
        t' = { t with
                ct_root := cn_tree_replaceAt t.ct_fanout
                  (parent.linkChild (o % t.ct_fanout) nn) t.ct_root l (o / t.ct_fanout)
                ct_next_id := t.ct_next_id + 1 })) := by
  by_cases h1 : t.ct_depth_max < L
  · rw [create_node_bad_level t a L o h1] at h
    cases h
  by_cases h2 : t.ct_fanout ^ L ≤ o
  · rw [create_node_bad_offset t a L o h1 h2] at h
    cases h
  refine ⟨h1, h2, ?_⟩
  cases L with
  | zero =>
      rw [create_node_zero t a o h2] at h
      simp only [Except.ok.injEq, Prod.mk.injEq] at h
      exact Or.inl ⟨rfl, h.1.symm, h.2.symm⟩
  | succ l =>
      cases hfind : cn_tree_find_node t ⟨l, o / t.ct_fanout⟩ with
      | none =>
          rw [create_node_parent_missing t a l o h1 h2 hfind] at h
          cases h
      | some parent =>
          cases hchild : parent.getChild (o % t.ct_fanout) with
          | some ex =>
              rw [create_node_existing t a l o parent ex h1 h2 hfind hchild] at h
              simp only [Except.ok.injEq, Prod.mk.injEq] at h
              refine Or.inr (Or.inl ⟨l, parent, rfl, hfind, ?_, h.1.symm⟩)
              rw [← h.2]
              exact hchild
          | none =>
              cases a with
              | false =>
                  rw [create_node_alloc_fail t l o parent h1 h2 hfind hchild] at h
                  cases h
              | true =>
                  rw [create_node_fresh t l o parent h1 h2 hfind hchild] at h
                  simp only [Except.ok.injEq, Prod.mk.injEq] at h
                  obtain ⟨ht, hn⟩ := h
                  subst hn
                  subst ht
                  exact Or.inr (Or.inr ⟨l, parent, rfl, rfl, hfind, hchild, rfl, rfl⟩)

theorem find_node_eq (t : cn_tree) (L o : Nat) (h : ¬ t.ct_depth_max < L) :
    cn_tree_find_node t ⟨L, o⟩ = cn_tree_findAux t.ct_fanout t.ct_root L o := by
  simp only [cn_tree_find_node, if_neg h]

theorem find_node_deep (t : cn_tree) (loc : cn_node_loc)
    (h : t.ct_depth_max < loc.node_level) : cn_tree_find_node t loc = none := by
  simp only [cn_tree_find_node, if_pos h]

theorem ct_fanout_pos (t : cn_tree) : 0 < t.ct_fanout :=
  pow_pos (by omega) _

theorem create_node_find_self (t : cn_tree) (a : Bool) (L o : Nat) (t' : cn_tree)
    (nn : cn_tree_node) (hwf : cn_treeWF t)
    (h : cn_tree_create_node t a L o = .ok (t', nn)) :
    cn_tree_find_node t' ⟨L, o⟩ = some nn := by
  obtain ⟨h1, h2, hc⟩ := create_node_cases t a L o t' nn h
  have hf : 0 < t.ct_fanout := ct_fanout_pos t
  rcases hc with ⟨hL, ht, hroot⟩ | ⟨l, parent, hL, hfind, hchild, ht⟩ |
    ⟨l, parent, hL, ha, hfind, hchild, hnn, ht⟩
  · subst hL
    rw [ht, hroot]
    rw [find_node_eq t 0 o (Nat.not_lt_zero _)]
    exact findAux_zero ..
  · subst hL
    rw [ht]
    rw [find_node_eq t (l + 1) o h1]
    rw [findAux_peel t.ct_fanout hf l t.ct_root o (by omega)]
    have hpar : cn_tree_findAux t.ct_fanout t.ct_root l (o / t.ct_fanout) = some parent := by
      rw [← find_node_eq t l (o / t.ct_fanout) (by omega)]
      exact hfind
    rw [hpar]
    exact hchild
  · subst hL
    have hpar : cn_tree_findAux t.ct_fanout t.ct_root l (o / t.ct_fanout) = some parent := by
      rw [← find_node_eq t l (o / t.ct_fanout) (by omega)]
      exact hfind
    have h1x : ¬ t'.ct_depth_max < l + 1 := by
      rw [ht]
      exact h1
    rw [find_node_eq t' (l + 1) o h1x]
    rw [ht]
    show cn_tree_findAux t.ct_fanout
      (cn_tree_replaceAt t.ct_fanout (parent.linkChild (o % t.ct_fanout) nn) t.ct_root l
        (o / t.ct_fanout)) (l + 1) o = some nn
    rw [findAux_peel t.ct_fanout hf l _ o (by omega)]
    rw [findAux_replaceAt_self t.ct_fanout (parent.linkChild (o % t.ct_fanout) nn) l
      t.ct_root parent (o / t.ct_fanout) hpar]
    show (parent.linkChild (o % t.ct_fanout) nn).getChild (o % t.ct_fanout) = some nn
    have hplen := (hwf l (o / t.ct_fanout) parent hpar).1
    refine getChild_linkChild_self parent _ nn ?_
    rw [hplen]
    exact Nat.mod_lt _ hf

theorem create_node_preserves_found (t : cn_tree) (a : Bool) (L o : Nat) (t' : cn_tree)
    (nn : cn_tree_node) (h : cn_tree_create_node t a L o = .ok (t', nn)) :
    t'.ct_fanout_bits = t.ct_fanout_bits ∧ t'.ct_fanout_mask = t.ct_fanout_mask ∧
    t'.ct_depth_max = t.ct_depth_max ∧
    ∀ L₀ o₀ m, cn_tree_findAux t.ct_fanout t.ct_root L₀ o₀ = some m →
      ∃ m', cn_tree_findAux t'.ct_fanout t'.ct_root L₀ o₀ = some m' ∧
        m'.tn_id = m.tn_id ∧ m'.tn_loc = m.tn_loc ∧
        m'.tn_kvset_list = m.tn_kvset_list ∧ m'.tn_ns = m.tn_ns := by
  obtain ⟨h1, h2, hc⟩ := create_node_cases t a L o t' nn h
  rcases hc with ⟨hL, ht, hroot⟩ | ⟨l, parent, hL, hfind, hchild, ht⟩ |
    ⟨l, parent, hL, ha, hfind, hchild, hnn, ht⟩
  · subst ht
    exact ⟨rfl, rfl, rfl, fun L₀ o₀ m hm => ⟨m, hm, rfl, rfl, rfl, rfl⟩⟩
  · subst ht
    exact ⟨rfl, rfl, rfl, fun L₀ o₀ m hm => ⟨m, hm, rfl, rfl, rfl, rfl⟩⟩
  · subst ht
    refine ⟨rfl, rfl, rfl, ?_⟩
    intro L₀ o₀ m hm
    obtain ⟨lf1, lf2, lf3, lf4, lf5⟩ := linkChild_fields parent (o % t.ct_fanout) nn
    have hpp : ∀ j c, parent.getChild j = some c →
        (parent.linkChild (o % t.ct_fanout) nn).getChild j = some c := by
      intro j c hjc
      by_cases hj : o % t.ct_fanout = j
      · rw [← hj] at hjc
        rw [hchild] at hjc
        cases hjc
      · rw [getChild_linkChild_ne parent _ j nn hj]
        exact hjc
    have hpar : cn_tree_findAux t.ct_fanout t.ct_root l (o / t.ct_fanout) = some parent := by
      rw [← find_node_eq t l (o / t.ct_fanout) (by omega)]
      exact hfind
    exact findAux_replace_preserve t.ct_fanout parent (parent.linkChild (o % t.ct_fanout) nn)
      lf1 lf2 lf3 lf4 hpp l t.ct_root (o / t.ct_fanout) hpar L₀ o₀ m hm

theorem create_node_WF (t : cn_tree) (a : Bool) (L o : Nat) (t' : cn_tree)
    (nn : cn_tree_node) (hwf : cn_treeWF t)
    (h : cn_tree_create_node t a L o = .ok (t', nn)) : cn_treeWF t' := by
  obtain ⟨h1, h2, hc⟩ := create_node_cases t a L o t' nn h
  have hf : 0 < t.ct_fanout := ct_fanout_pos t
  rcases hc with ⟨hL, ht, hroot⟩ | ⟨l, parent, hL, hfind, hchild, ht⟩ |
    ⟨l, parent, hL, ha, hfind, hchild, hnn, ht⟩
  · subst ht
    exact hwf
  · subst ht
    exact hwf
  · subst ht
    intro L₀ o₀ m' hm'
    have hpar : cn_tree_findAux t.ct_fanout t.ct_root l (o / t.ct_fanout) = some parent := by
      rw [← find_node_eq t l (o / t.ct_fanout) (by omega)]
      exact hfind
    have hplen := (hwf l (o / t.ct_fanout) parent hpar).1
    have hd : o % t.ct_fanout < parent.tn_childv.length := by
      rw [hplen]
      exact Nat.mod_lt _ hf
    have hnnc : ∀ j, nn.getChild j = none := by
      intro j
      rw [hnn]
      exact getDo_replicate ..
    have hm'2 : cn_tree_findAux t.ct_fanout
        (cn_tree_replaceAt t.ct_fanout (parent.linkChild (o % t.ct_fanout) nn) t.ct_root l
          (o / t.ct_fanout)) L₀ o₀ = some m' := hm'
    rcases findAux_replace_back t.ct_fanout parent (o % t.ct_fanout) nn hchild hd hnnc l
      t.ct_root (o / t.ct_fanout) hpar L₀ o₀ m' hm'2 with hnew | ⟨m, hm, hlen, hcc⟩
    · subst hnew
      constructor
      · rw [hnn]
        show (List.replicate t.ct_fanout none).length = t.ct_fanout
        exact List.length_replicate ..
      · rw [hnn]
        show (0 : Nat) = countSome (List.replicate t.ct_fanout none)
        exact (countSome_replicate _).symm
    · obtain ⟨hlenm, hccm⟩ := hwf L₀ o₀ m hm
      constructor
      · rw [hlen, hlenm]
        rfl
      · rcases hcc with ⟨e1, e2⟩ | ⟨e1, e2⟩ <;> omega

theorem runOps_nil (t : cn_tree) : cn_tree_runOps t [] = t := rfl

theorem runOps_cons (t : cn_tree) (op : Bool × Nat × Nat) (ops : List (Bool × Nat × Nat)) :
    cn_tree_runOps t (op :: ops) =
      cn_tree_runOps (match cn_tree_create_node t op.1 op.2.1 op.2.2 with
        | .ok p => p.1
        | .error _ => t) ops := rfl

theorem runOps_inv (ops : List (Bool × Nat × Nat)) : ∀ (t : cn_tree), cn_treeWF t →
    cn_treeWF (cn_tree_runOps t ops) ∧
    (cn_tree_runOps t ops).ct_fanout_bits = t.ct_fanout_bits ∧
    (cn_tree_runOps t ops).ct_fanout_mask = t.ct_fanout_mask ∧
    (cn_tree_runOps t ops).ct_depth_max = t.ct_depth_max ∧
    ∀ L o m, cn_tree_findAux t.ct_fanout t.ct_root L o = some m →
      ∃ m', cn_tree_findAux (cn_tree_runOps t ops).ct_fanout
          (cn_tree_runOps t ops).ct_root L o = some m' ∧
        m'.tn_id = m.tn_id ∧ m'.tn_loc = m.tn_loc := by
  induction ops with
  | nil =>
      intro t hwf
      exact ⟨hwf, rfl, rfl, rfl, fun L o m hm => ⟨m, hm, rfl, rfl⟩⟩
  | cons op ops ih =>
      intro t hwf
      rw [runOps_cons]
      cases hc : cn_tree_create_node t op.1 op.2.1 op.2.2 with
      | error e =>
          simp only
          exact ih t hwf
      | ok p =>
          simp only
          have hwf1 := create_node_WF t op.1 op.2.1 op.2.2 p.1 p.2 hwf hc
          obtain ⟨e1, e2, e3, e4, e5⟩ := ih p.1 hwf1
          obtain ⟨g1, g2, g3, g4⟩ := create_node_preserves_found t op.1 op.2.1 op.2.2 p.1 p.2 hc
          refine ⟨e1, e2.trans g1, e3.trans g2, e4.trans g3, ?_⟩
          intro L o m hm
          obtain ⟨m1, hm1, i1, l1, _, _⟩ := g4 L o m hm
          obtain ⟨m2, hm2, i2, l2⟩ := e5 L o m1 hm1
          exact ⟨m2, hm2, i2.trans i1, l2.trans l1⟩

theorem cn_tree_create_WF (fb dm : Nat) : cn_treeWF (cn_tree_create fb dm) := by
  intro L o m hm
  cases L with
  | zero =>
      have hmr : (cn_tree_create fb dm).ct_root = m := Option.some.inj hm
      subst hmr
      constructor
      · show (List.replicate (2 ^ fb) none).length = (cn_tree_create fb dm).ct_fanout
        rw [List.length_replicate]
        rfl
      · show (0 : Nat) = countSome (List.replicate (2 ^ fb) none)
        exact (countSome_replicate _).symm
  | succ l =>
      rw [findAux_succ_none (cn_tree_create fb dm).ct_fanout (cn_tree_create fb dm).ct_root l o
        (show (cn_tree_create fb dm).ct_root.getChild
            (o / (cn_tree_create fb dm).ct_fanout ^ l) = none from
          getDo_replicate (2 ^ fb) (o / (cn_tree_create fb dm).ct_fanout ^ l))] at hm
      cases hm

/-- The node created by the spec's scenario (fanout_bits 3, depth_max 2,
create at (1,5)): fresh id 1, location (1,5), empty kvset list, zeroed
statistics, no children. -/
def c5_node : cn_tree_node :=
  .mk 1 ⟨1, 5⟩ [] .zero 0 (List.replicate 8 none)

/-- The scenario tree after creating the root (with the tree) and the
node at (1,5). -/
def c5_tree : cn_tree :=
  { ct_root := (cn_tree_create 3 2).ct_root.linkChild 5 c5_node
    ct_fanout_bits := 3
    ct_fanout_mask := 7
    ct_depth_max := 2
    ct_next_id := 2 }

/-- C3: `cn_tree_create_node` called with `level > depth_max` fails with
`invalidLocation`; with a valid location whose parent does not exist it
fails with `parentMissing`; with a valid location, an existing parent,
an empty child slot and an exhausted allocator it fails with
`allocationFailure` — each error is returned to the caller.  On success
at a not-yet-created location, the new node has an empty kvset list,
zeroed statistics, no children, the requested location, a fresh
identity, and is linked under its existing parent (it is reachable by
`cn_tree_find_node` at the requested location). -/
theorem c3_create_node_errors :
    (∀ (t : cn_tree) (a : Bool) (L o : Nat), t.ct_depth_max < L →
        cn_tree_create_node t a L o = .error merr.invalidLocation) ∧
    (∀ (t : cn_tree) (a : Bool) (l o : Nat), ¬ t.ct_depth_max < l + 1 →
        ¬ t.ct_fanout ^ (l + 1) ≤ o →
        cn_tree_find_node t ⟨l, o / t.ct_fanout⟩ = none →
        cn_tree_create_node t a (l + 1) o = .error merr.parentMissing) ∧
    (∀ (t : cn_tree) (l o : Nat) (parent : cn_tree_node), ¬ t.ct_depth_max < l + 1 →
        ¬ t.ct_fanout ^ (l + 1) ≤ o →
        cn_tree_find_node t ⟨l, o / t.ct_fanout⟩ = some parent →
        parent.getChild (o % t.ct_fanout) = none →
        cn_tree_create_node t false (l + 1) o = .error merr.allocationFailure) ∧
    (∀ (t : cn_tree) (a : Bool) (L o : Nat) (t' : cn_tree) (nn : cn_tree_node),
        cn_treeWF t →
        cn_tree_find_node t ⟨L, o⟩ = none →
        cn_tree_create_node t a L o = .ok (t', nn) →
        nn.tn_kvset_list = [] ∧ cn_node_stats_get nn = cn_node_stats.zero ∧
        nn.tn_childc = 0 ∧ nn.tn_loc = ⟨L, o⟩ ∧
        cn_tree_find_node t' ⟨L, o⟩ = some nn) := by
  refine ⟨create_node_bad_level, create_node_parent_missing, create_node_alloc_fail, ?_⟩
  intro t a L o t' nn hwf hnone h
  obtain ⟨h1, h2, hc⟩ := create_node_cases t a L o t' nn h
  have hfind := create_node_find_self t a L o t' nn hwf h
  rcases hc with ⟨hL, ht, hroot⟩ | ⟨l, parent, hL, hfind2, hchild, ht⟩ |
    ⟨l, parent, hL, ha, hfind2, hchild, hnn, ht⟩
  · exfalso
    subst hL
    rw [find_node_eq t 0 o (Nat.not_lt_zero _), findAux_zero] at hnone
    cases hnone
  · exfalso
    subst hL
    have hf : 0 < t.ct_fanout := ct_fanout_pos t
    rw [find_node_eq t (l + 1) o h1,
      findAux_peel t.ct_fanout hf l t.ct_root o (by omega)] at hnone
    have hpar : cn_tree_findAux t.ct_fanout t.ct_root l (o / t.ct_fanout) = some parent := by
      rw [← find_node_eq t l (o / t.ct_fanout) (by omega)]
      exact hfind2
    rw [hpar] at hnone
    have hx : parent.getChild (o % t.ct_fanout) = none := hnone
    rw [hchild] at hx
    cases hx
  · subst hL
    refine ⟨?_, ?_, ?_, ?_, hfind⟩ <;> rw [hnn] <;> rfl

theorem c3_create_node_errors_witness :
    (cn_tree_create 3 2).ct_depth_max < 5 ∧
    cn_tree_create_node (cn_tree_create 3 2) true 5 0 = .error merr.invalidLocation ∧
    cn_tree_create_node (cn_tree_create 3 2) true 2 9 = .error merr.parentMissing ∧
    cn_tree_create_node (cn_tree_create 3 2) false 1 5 = .error merr.allocationFailure ∧
    c5_node.tn_kvset_list = [] ∧
    cn_tree_find_node c5_tree ⟨1, 5⟩ = some c5_node := by
  have w1 := c3_create_node_errors.1 (cn_tree_create 3 2) true 5 0 (by decide)
  have w2 := c3_create_node_errors.2.1 (cn_tree_create 3 2) true 1 9 (by decide) (by decide) rfl
  have w3 := c3_create_node_errors.2.2.1 (cn_tree_create 3 2) 0 5 (cn_tree_create 3 2).ct_root
    (by decide) (by decide) rfl rfl
  have w4 := c3_create_node_errors.2.2.2 (cn_tree_create 3 2) true 1 5 c5_tree c5_node
    (cn_tree_create_WF 3 2) rfl rfl
  exact ⟨by decide, w1, w2, w3, w4.1, w4.2.2.2.2⟩

/-- C4: on a well-formed tree, if `cn_tree_create_node` succeeds for
location `(L, o)`, then `cn_tree_find_node` at `(L, o)` returns exactly
the node `cn_tree_create_node` produced, and that node (by its stable
identity) remains reachable at the same location after any further
sequence of `cn_tree_create_node` operations — nodes are never destroyed
individually. -/
theorem c4_create_find_reachable (t : cn_tree) (allocOk : Bool) (L o : Nat)
    (t' : cn_tree) (nn : cn_tree_node) (hwf : cn_treeWF t)
    (h : cn_tree_create_node t allocOk L o = .ok (t', nn)) :
    cn_tree_find_node t' ⟨L, o⟩ = some nn ∧
    ∀ ops, (cn_tree_find_node (cn_tree_runOps t' ops) ⟨L, o⟩).map cn_tree_node.tn_id =
      some nn.tn_id := by
  have hfind := create_node_find_self t allocOk L o t' nn hwf h
  refine ⟨hfind, ?_⟩
  intro ops
  have hwf' := create_node_WF t allocOk L o t' nn hwf h
  obtain ⟨e1, e2, e3, e4, e5⟩ := runOps_inv ops t' hwf'
  obtain ⟨h1, h2, _⟩ := create_node_cases t allocOk L o t' nn h
  obtain ⟨g1, g2, g3, _⟩ := create_node_preserves_found t allocOk L o t' nn h
  have h1x : ¬ t'.ct_depth_max < L := by
    rw [g3]
    exact h1
  have hfx : cn_tree_findAux t'.ct_fanout t'.ct_root L o = some nn := by
    rw [← find_node_eq t' L o h1x]
    exact hfind
  obtain ⟨m', hm', hid, hloc⟩ := e5 L o nn hfx
  have hdep : ¬ (cn_tree_runOps t' ops).ct_depth_max < L := by
    rw [e4]
    exact h1x
  rw [find_node_eq _ L o hdep, hm']
  show some m'.tn_id = some nn.tn_id
  rw [hid]

theorem c4_create_find_reachable_witness :
    cn_tree_create_node (cn_tree_create 3 2) true 1 5 = .ok (c5_tree, c5_node) ∧
    cn_tree_find_node c5_tree ⟨1, 5⟩ = some c5_node ∧
    (cn_tree_find_node (cn_tree_runOps c5_tree [(true, 2, 41)]) ⟨1, 5⟩).map
      cn_tree_node.tn_id = some c5_node.tn_id := by
  have h : cn_tree_create_node (cn_tree_create 3 2) true 1 5 = .ok (c5_tree, c5_node) := rfl
  have hc := c4_create_find_reachable (cn_tree_create 3 2) true 1 5 c5_tree c5_node
    (cn_tree_create_WF 3 2) h
  exact ⟨h, hc.1, hc.2 [(true, 2, 41)]⟩

/-- C5: `cn_tree_find_node` returns `none` when the location exceeds
`depth_max`, and `none` at a position not yet created; in the spec's
scenario (fanout_bits 3 — fanout 8 — and depth_max 2, root created with
the tree, then a node created at (1,5)): looking up (1,5) returns
exactly the created node and looking up (1,6) returns `none`. -/
theorem c5_find_node_scenario :
    (∀ (t : cn_tree) (loc : cn_node_loc), t.ct_depth_max < loc.node_level →
        cn_tree_find_node t loc = none) ∧
    cn_tree_find_node (cn_tree_create 3 2) ⟨1, 5⟩ = none ∧
    cn_tree_create_node (cn_tree_create 3 2) true 1 5 = .ok (c5_tree, c5_node) ∧
    cn_tree_find_node c5_tree ⟨1, 5⟩ = some c5_node ∧
    cn_tree_find_node c5_tree ⟨1, 6⟩ = none :=
  ⟨find_node_deep, rfl, rfl, rfl, rfl⟩

theorem c5_find_node_scenario_witness :
    (cn_tree_create 3 2).ct_depth_max < 5 ∧
    cn_tree_find_node (cn_tree_create 3 2) ⟨5, 0⟩ = none := by
  have h : (cn_tree_create 3 2).ct_depth_max < 5 := by decide
  exact ⟨h, c5_find_node_scenario.1 (cn_tree_create 3 2) ⟨5, 0⟩ h⟩

/-- C9: in every tree built by construction followed by any sequence of
`cn_tree_create_node` operations: the fanout is the power of two
`2 ^ ct_fanout_bits` with `ct_fanout_mask = fanout - 1`; the root exists
and is never replaced (the node found at location (0,0) carries the
identity the root was constructed with); and every reachable node's
child count is at most the fanout. -/
theorem c9_tree_invariants (fb dm : Nat) (ops : List (Bool × Nat × Nat)) :
    (cn_tree_runOps (cn_tree_create fb dm) ops).ct_fanout =
      2 ^ (cn_tree_runOps (cn_tree_create fb dm) ops).ct_fanout_bits ∧
    (cn_tree_runOps (cn_tree_create fb dm) ops).ct_fanout_mask =
      (cn_tree_runOps (cn_tree_create fb dm) ops).ct_fanout - 1 ∧
    (∃ r, cn_tree_find_node (cn_tree_runOps (cn_tree_create fb dm) ops) ⟨0, 0⟩ = some r ∧
        r.tn_id = (cn_tree_create fb dm).ct_root.tn_id) ∧
    ∀ L o m, cn_tree_find_node (cn_tree_runOps (cn_tree_create fb dm) ops) ⟨L, o⟩ = some m →
      m.tn_childc ≤ (cn_tree_runOps (cn_tree_create fb dm) ops).ct_fanout := by
  obtain ⟨e1, e2, e3, e4, e5⟩ := runOps_inv ops (cn_tree_create fb dm) (cn_tree_create_WF fb dm)
  refine ⟨rfl, ?_, ?_, ?_⟩
  · rw [e3]
    show (2 : Nat) ^ fb - 1 =
      2 ^ (cn_tree_runOps (cn_tree_create fb dm) ops).ct_fanout_bits - 1
    rw [e2]
    rfl
  · obtain ⟨m', hm', hid, hloc⟩ := e5 0 0 (cn_tree_create fb dm).ct_root (findAux_zero ..)
    refine ⟨m', ?_, hid⟩
    rw [find_node_eq _ 0 0 (Nat.not_lt_zero _)]
    exact hm'
  · intro L o m hm
    by_cases hdep : (cn_tree_runOps (cn_tree_create fb dm) ops).ct_depth_max < L
    · rw [find_node_deep _ _ hdep] at hm
      cases hm
    · rw [find_node_eq _ L o hdep] at hm
      obtain ⟨hlen, hcc⟩ := e1 L o m hm
      rw [hcc, ← hlen]
      exact countSome_le_length _

theorem c9_tree_invariants_witness :
    cn_tree_find_node (cn_tree_runOps (cn_tree_create 3 2) [(true, 1, 5)]) ⟨1, 5⟩ =
      some c5_node ∧
    c5_node.tn_childc ≤ (cn_tree_runOps (cn_tree_create 3 2) [(true, 1, 5)]).ct_fanout := by
  have hfind : cn_tree_find_node (cn_tree_runOps (cn_tree_create 3 2) [(true, 1, 5)]) ⟨1, 5⟩ =
      some c5_node := rfl
  exact ⟨hfind, (c9_tree_invariants 3 2 [(true, 1, 5)]).2.2.2 1 5 c5_node hfind⟩

/-! ### ListEntryArena (`struct cn_kle_cache` / `struct cn_kle_hdr`) -/

/-- A page of the kvset-list-entry cache (`struct cn_kle_hdr`).
`kh_all` is the page's fixed set of entry slots (the flat region after
the header); `kh_entries` is the embedded free sub-list; `kh_nallocs`
and `kh_nfrees` are the page's allocation/free counters.  The `kh_link`
field is represented by the page's position in the cache's page list. -/
structure cn_kle_hdr where
  kh_all : List Nat
  kh_entries : List Nat
  kh_nallocs : Nat
  kh_nfrees : Nat
deriving DecidableEq, Repr

/-- The cache (`struct cn_kle_cache`): page count and page list (most
recently linked page first).  `kc_next` models the address supply for
fresh pages and `kc_cap` the number of entries that fit in one page. -/
structure cn_kle_cache where
  kc_npages : Nat
  kc_pages : List cn_kle_hdr
  kc_next : Nat
  kc_cap : Nat
deriving DecidableEq, Repr

/-- A fresh, empty cache; a page holds at least one entry. -/
def kle_cache_init (cap : Nat) : cn_kle_cache :=
  { kc_npages := 0, kc_pages := [], kc_next := 0, kc_cap := cap + 1 }

/-- Modelled from the spec: scan the page list (most recently used
first) for a page with free capacity and pop the head of its free
sub-list, bumping that page's allocation counter. -/
def kle_alloc_pages : List cn_kle_hdr → Option (List cn_kle_hdr × Nat)
  | [] => none
  | p :: ps =>
      match p.kh_entries with
      | e :: rest =>
          some ({ p with kh_entries := rest, kh_nallocs := p.kh_nallocs + 1 } :: ps, e)
      | [] =>
          match kle_alloc_pages ps with
          | some (ps', e) => some (p :: ps', e)
          | none => none

/-- Modelled from the spec: `allocate_entry` — try the most recently
used page with free capacity; if none has room, obtain a new page, link
it at the head of the page list and take its first entry. -/
def cn_kle_alloc (c : cn_kle_cache) : cn_kle_cache × Nat :=
  match kle_alloc_pages c.kc_pages with
  | some (ps', e) => ({ c with kc_pages := ps' }, e)
  | none =>
      ({ kc_npages := c.kc_npages + 1
         kc_pages := { kh_all := List.range' c.kc_next c.kc_cap
                       kh_entries := List.range' (c.kc_next + 1) (c.kc_cap - 1)
                       kh_nallocs := 1
                       kh_nfrees := 0 } :: c.kc_pages
         kc_next := c.kc_next + c.kc_cap
         kc_cap := c.kc_cap }, c.kc_next)

/-- Modelled from the spec: return entry `e` to the free sub-list of the
page it originated from, bumping that page's free counter. -/
def kle_free_pages (e : Nat) : List cn_kle_hdr → List cn_kle_hdr
  | [] => []
  | p :: ps =>
      if e ∈ p.kh_all ∧ e ∉ p.kh_entries then
        { p with kh_entries := e :: p.kh_entries, kh_nfrees := p.kh_nfrees + 1 } :: ps
      else p :: kle_free_pages e ps

/-- Modelled from the spec: `free_entry`. -/
def cn_kle_free (c : cn_kle_cache) (e : Nat) : cn_kle_cache :=
  { c with kc_pages := kle_free_pages e c.kc_pages }

/-- The entries of page `p` currently in use (allocated and not on the
free sub-list): these are the entries linked into node kvset lists that
originated from this page. -/
def kle_live (p : cn_kle_hdr) : List Nat :=
  p.kh_all.filter (fun e => decide (e ∉ p.kh_entries))

/-- Entry `e` is live in one of the pages. -/
def liveIn (ps : List cn_kle_hdr) (e : Nat) : Prop :=
  ∃ p ∈ ps, e ∈ p.kh_all ∧ e ∉ p.kh_entries

/-- The arena paired with the list of entries currently linked into node
kvset lists: an allocated entry is linked by its caller, a freed entry is
unlinked first. -/
structure KleSys where
  cache : cn_kle_cache
  linked : List Nat
deriving DecidableEq, Repr

inductive KleOp where
  | alloc
  | free (e : Nat)
deriving DecidableEq, Repr

/-- One arena operation: `alloc` allocates an entry and links it;
`free e` unlinks a currently linked entry and returns it to its page
(freeing an entry that is not linked is a caller error and does
nothing). -/
def kle_sys_step (s : KleSys) : KleOp → KleSys
  | .alloc =>
      ⟨(cn_kle_alloc s.cache).1, (cn_kle_alloc s.cache).2 :: s.linked⟩
  | .free e =>
      if e ∈ s.linked then ⟨cn_kle_free s.cache e, s.linked.erase e⟩ else s

def kle_sys_run (cap : Nat) (ops : List KleOp) : KleSys :=
  ops.foldl kle_sys_step ⟨kle_cache_init cap, []⟩

/-- Per-page invariant: counters balance against the free sub-list, the
free sub-list is a duplicate-free subset of the page's slots, and all
slots are below the allocation watermark `next`. -/
def pageOK (next : Nat) (p : cn_kle_hdr) : Prop :=
  p.kh_nfrees ≤ p.kh_nallocs ∧
  p.kh_nallocs + p.kh_entries.length = p.kh_nfrees + p.kh_all.length ∧
  (∀ e ∈ p.kh_entries, e ∈ p.kh_all) ∧
  p.kh_entries.Nodup ∧
  p.kh_all.Nodup ∧
  (∀ e ∈ p.kh_all, e < next)

/-- Distinct pages own disjoint entry slots. -/
def pagesDisj (ps : List cn_kle_hdr) : Prop :=
  List.Pairwise (fun a b => ∀ e, e ∈ a → ¬ e ∈ b) (ps.map (fun p => p.kh_all))

/-- System invariant for the arena coupled with the linked-entry list. -/
def kleINV (s : KleSys) : Prop :=
  (∀ p ∈ s.cache.kc_pages, pageOK s.cache.kc_next p) ∧
  pagesDisj s.cache.kc_pages ∧
  0 < s.cache.kc_cap ∧
  s.linked.Nodup ∧
  (∀ e, e ∈ s.linked ↔ liveIn s.cache.kc_pages e)

theorem kle_alloc_pages_spec (next : Nat) :
    ∀ (ps ps' : List cn_kle_hdr) (e : Nat),
      kle_alloc_pages ps = some (ps', e) →
      (∀ p ∈ ps, pageOK next p) → pagesDisj ps →
      (∀ p ∈ ps', pageOK next p) ∧
      ps'.map (fun p => p.kh_all) = ps.map (fun p => p.kh_all) ∧
      ¬ liveIn ps e ∧ liveIn ps' e ∧
      (∀ x, x ≠ e → (liveIn ps x ↔ liveIn ps' x)) := by
  intro ps
  induction ps with
  | nil =>
      intro ps' e h
      exact Option.noConfusion h
  | cons p ps ih =>
      intro ps' e h hok hdisj
      have hokp : pageOK next p := hok p (List.mem_cons_self ..)
      have hoks : ∀ q ∈ ps, pageOK next q := fun q hq => hok q (List.mem_cons_of_mem _ hq)
      simp only [pagesDisj, List.map_cons, List.pairwise_cons] at hdisj
      obtain ⟨hdhead, hdtail⟩ := hdisj
      cases hent : p.kh_entries with
      | cons e0 rest =>
          rw [show kle_alloc_pages (p :: ps) =
              some ({ p with kh_entries := rest, kh_nallocs := p.kh_nallocs + 1 } :: ps, e0)
              from by simp only [kle_alloc_pages, hent]] at h
          simp only [Option.some.injEq, Prod.mk.injEq] at h
          obtain ⟨h1, h2⟩ := h
          subst h1
          subst h2
          obtain ⟨hle, hcnt, hsub, hnd, hnda, hbnd⟩ := hokp
          have he0ent : e0 ∈ p.kh_entries := by
            rw [hent]
            exact List.mem_cons_self ..
          have he0all : e0 ∈ p.kh_all := hsub e0 he0ent
          have he0rest : e0 ∉ rest := by
            rw [hent] at hnd
            exact (List.nodup_cons.mp hnd).1
          have hndrest : rest.Nodup := by
            rw [hent] at hnd
            exact (List.nodup_cons.mp hnd).2
          have hcnt' : p.kh_nallocs + (rest.length + 1) = p.kh_nfrees + p.kh_all.length := by
            rw [hent] at hcnt
            simpa using hcnt
          refine ⟨?_, rfl, ?_, ?_, ?_⟩
          · intro q hq
            rcases List.mem_cons.mp hq with rfl | hq'
            · refine ⟨?_, ?_, ?_, hndrest, hnda, hbnd⟩
              · show p.kh_nfrees ≤ p.kh_nallocs + 1
                omega
              · show p.kh_nallocs + 1 + rest.length = p.kh_nfrees + p.kh_all.length
                omega
              · intro x hx
                refine hsub x ?_
                rw [hent]
                exact List.mem_cons_of_mem _ hx
            · exact hoks q hq'
          · rintro ⟨q, hq, hqa, hqe⟩
            rcases List.mem_cons.mp hq with rfl | hq'
            · exact hqe he0ent
            · exact hdhead q.kh_all (List.mem_map_of_mem _ hq') e0 he0all hqa
          · exact ⟨_, List.mem_cons_self .., he0all, he0rest⟩
          · intro x hx
            constructor
            · rintro ⟨q, hq, hqa, hqe⟩
              rcases List.mem_cons.mp hq with rfl | hq'
              · refine ⟨_, List.mem_cons_self .., hqa, ?_⟩
                show x ∉ rest
                intro hr
                refine hqe ?_
                rw [hent]
                exact List.mem_cons_of_mem _ hr
              · exact ⟨q, List.mem_cons_of_mem _ hq', hqa, hqe⟩
            · rintro ⟨q, hq, hqa, hqe⟩
              rcases List.mem_cons.mp hq with rfl | hq'
              · refine ⟨p, List.mem_cons_self .., hqa, ?_⟩
                rw [hent]
                intro hmem
                rcases List.mem_cons.mp hmem with rfl | hr
                · exact hx rfl
                · exact hqe hr
              · exact ⟨q, List.mem_cons_of_mem _ hq', hqa, hqe⟩
      | nil =>
          cases hrec : kle_alloc_pages ps with
          | none =>
              rw [show kle_alloc_pages (p :: ps) = none from by
                simp only [kle_alloc_pages, hent, hrec]] at h
              exact Option.noConfusion h
          | some pr =>
              obtain ⟨ps₂, e₂⟩ := pr
              rw [show kle_alloc_pages (p :: ps) = some (p :: ps₂, e₂) from by
                simp only [kle_alloc_pages, hent, hrec]] at h
              simp only [Option.some.injEq, Prod.mk.injEq] at h
              obtain ⟨h1, h2⟩ := h
              subst h1
              subst h2
              obtain ⟨ih1, ih2, ih3, ih4, ih5⟩ := ih ps₂ e₂ hrec hoks hdtail
              refine ⟨?_, ?_, ?_, ?_, ?_⟩
              · intro q hq
                rcases List.mem_cons.mp hq with rfl | hq'
                · exact hokp
                · exact ih1 q hq'
              · rw [List.map_cons, List.map_cons, ih2]
              · rintro ⟨q, hq, hqa, hqe⟩
                rcases List.mem_cons.mp hq with rfl | hq'
                · obtain ⟨q₂, hq₂, hq₂a, _⟩ := ih4
                  have hmem : q₂.kh_all ∈ ps.map (fun p => p.kh_all) := by
                    rw [← ih2]
                    exact List.mem_map_of_mem _ hq₂
                  exact hdhead q₂.kh_all hmem e₂ hqa hq₂a
                · exact ih3 ⟨q, hq', hqa, hqe⟩
              · obtain ⟨q₂, hq₂, hq₂a, hq₂e⟩ := ih4
                exact ⟨q₂, List.mem_cons_of_mem _ hq₂, hq₂a, hq₂e⟩
              · intro x hx
                constructor
                · rintro ⟨q, hq, hqa, hqe⟩
                  rcases List.mem_cons.mp hq with hqp | hq'
                  · rw [hqp] at hqa hqe
                    exact ⟨p, List.mem_cons_self .., hqa, hqe⟩
                  · obtain ⟨q₂, hq₂, a2, e2'⟩ := (ih5 x hx).mp ⟨q, hq', hqa, hqe⟩
                    exact ⟨q₂, List.mem_cons_of_mem _ hq₂, a2, e2'⟩
                · rintro ⟨q, hq, hqa, hqe⟩
                  rcases List.mem_cons.mp hq with hqp | hq'
                  · rw [hqp] at hqa hqe
                    exact ⟨p, List.mem_cons_self .., hqa, hqe⟩
                  · obtain ⟨q₂, hq₂, a2, e2'⟩ := (ih5 x hx).mpr ⟨q, hq', hqa, hqe⟩
                    exact ⟨q₂, List.mem_cons_of_mem _ hq₂, a2, e2'⟩

theorem kle_free_pages_spec (next : Nat) :
    ∀ (ps : List cn_kle_hdr) (e : Nat),
      (∀ p ∈ ps, pageOK next p) → pagesDisj ps →
      (∀ p ∈ kle_free_pages e ps, pageOK next p) ∧
      (kle_free_pages e ps).map (fun p => p.kh_all) = ps.map (fun p => p.kh_all) ∧
      ¬ liveIn (kle_free_pages e ps) e ∧
      (∀ x, x ≠ e → (liveIn ps x ↔ liveIn (kle_free_pages e ps) x)) := by
  intro ps
  induction ps with
  | nil =>
      intro e hok hdisj
      refine ⟨fun p hp => absurd hp (by simp [kle_free_pages]), rfl, ?_, fun x hx => Iff.rfl⟩
      rintro ⟨q, hq, _, _⟩
      exact absurd hq (by simp [kle_free_pages])
  | cons p ps ih =>
      intro e hok hdisj
      have hokp := hok p (List.mem_cons_self ..)
      have hoks : ∀ q ∈ ps, pageOK next q := fun q hq => hok q (List.mem_cons_of_mem _ hq)
      simp only [pagesDisj, List.map_cons, List.pairwise_cons] at hdisj
      obtain ⟨hdhead, hdtail⟩ := hdisj
      by_cases hcond : e ∈ p.kh_all ∧ e ∉ p.kh_entries
      · rw [show kle_free_pages e (p :: ps) =
            { p with kh_entries := e :: p.kh_entries, kh_nfrees := p.kh_nfrees + 1 } :: ps
            from by simp only [kle_free_pages, if_pos hcond]]
        obtain ⟨hle, hcnt, hsub, hnd, hnda, hbnd⟩ := hokp
        have hlt : p.kh_entries.length + 1 ≤ p.kh_all.length := by
          have hsp : (e :: p.kh_entries).Nodup := List.nodup_cons.mpr ⟨hcond.2, hnd⟩
          have hss : (e :: p.kh_entries) ⊆ p.kh_all := by
            intro x hxm
            rcases List.mem_cons.mp hxm with rfl | hxm'
            · exact hcond.1
            · exact hsub x hxm'
          simpa using (List.subperm_of_subset hsp hss).length_le
        refine ⟨?_, rfl, ?_, ?_⟩
        · intro q hq
          rcases List.mem_cons.mp hq with hqp | hq'
          · rw [hqp]
            refine ⟨?_, ?_, ?_, List.nodup_cons.mpr ⟨hcond.2, hnd⟩, hnda, hbnd⟩
            · show p.kh_nfrees + 1 ≤ p.kh_nallocs
              omega
            · show p.kh_nallocs + (p.kh_entries.length + 1) =
                p.kh_nfrees + 1 + p.kh_all.length
              omega
            · intro x hxm
              rcases List.mem_cons.mp hxm with rfl | hxm'
              · exact hcond.1
              · exact hsub x hxm'
          · exact hoks q hq'
        · rintro ⟨q, hq, hqa, hqe⟩
          rcases List.mem_cons.mp hq with hqp | hq'
          · refine hqe ?_
            rw [hqp]
            exact List.mem_cons_self ..
          · exact hdhead q.kh_all (List.mem_map_of_mem _ hq') e hcond.1 hqa
        · intro x hx
          constructor
          · rintro ⟨q, hq, hqa, hqe⟩
            rcases List.mem_cons.mp hq with hqp | hq'
            · rw [hqp] at hqa hqe
              refine ⟨_, List.mem_cons_self .., hqa, ?_⟩
              show x ∉ e :: p.kh_entries
              intro hxm
              rcases List.mem_cons.mp hxm with h' | h'
              · exact hx h'
              · exact hqe h'
            · exact ⟨q, List.mem_cons_of_mem _ hq', hqa, hqe⟩
          · rintro ⟨q, hq, hqa, hqe⟩
            rcases List.mem_cons.mp hq with hqp | hq'
            · rw [hqp] at hqa hqe
              refine ⟨p, List.mem_cons_self .., hqa, ?_⟩
              intro hxm
              exact hqe (List.mem_cons_of_mem _ hxm)
            · exact ⟨q, List.mem_cons_of_mem _ hq', hqa, hqe⟩
      · rw [show kle_free_pages e (p :: ps) = p :: kle_free_pages e ps from by
          simp only [kle_free_pages, if_neg hcond]]
        obtain ⟨ih1, ih2, ih3, ih4⟩ := ih e hoks hdtail
        refine ⟨?_, ?_, ?_, ?_⟩
        · intro q hq
          rcases List.mem_cons.mp hq with hqp | hq'
          · rw [hqp]
            exact hok p (List.mem_cons_self ..)
          · exact ih1 q hq'
        · rw [List.map_cons, List.map_cons, ih2]
        · rintro ⟨q, hq, hqa, hqe⟩
          rcases List.mem_cons.mp hq with hqp | hq'
          · rw [hqp] at hqa hqe
            exact hcond ⟨hqa, hqe⟩
          · exact ih3 ⟨q, hq', hqa, hqe⟩
        · intro x hx
          constructor
          · rintro ⟨q, hq, hqa, hqe⟩
            rcases List.mem_cons.mp hq with hqp | hq'
            · rw [hqp] at hqa hqe
              exact ⟨p, List.mem_cons_self .., hqa, hqe⟩
            · obtain ⟨q₂, h2a, h2b, h2c⟩ := (ih4 x hx).mp ⟨q, hq', hqa, hqe⟩
              exact ⟨q₂, List.mem_cons_of_mem _ h2a, h2b, h2c⟩
          · rintro ⟨q, hq, hqa, hqe⟩
            rcases List.mem_cons.mp hq with hqp | hq'
            · rw [hqp] at hqa hqe
              exact ⟨p, List.mem_cons_self .., hqa, hqe⟩
            · obtain ⟨q₂, h2a, h2b, h2c⟩ := (ih4 x hx).mpr ⟨q, hq', hqa, hqe⟩
              exact ⟨q₂, List.mem_cons_of_mem _ h2a, h2b, h2c⟩

theorem pageOK_mono (next next' : Nat) (h : next ≤ next') (p : cn_kle_hdr)
    (hp : pageOK next p) : pageOK next' p := by
  obtain ⟨h1, h2, h3, h4, h5, h6⟩ := hp
  exact ⟨h1, h2, h3, h4, h5, fun e he => by have := h6 e he; omega⟩

theorem kle_new_page_ok (next cap : Nat) (hcap : 0 < cap) :
    pageOK (next + cap)
      ⟨List.range' next cap, List.range' (next + 1) (cap - 1), 1, 0⟩ ∧
    (∀ x, (x ∈ List.range' next cap ∧ x ∉ List.range' (next + 1) (cap - 1)) ↔ x = next) := by
  constructor
  · refine ⟨?_, ?_, ?_, ?_, ?_, ?_⟩
    · show (0 : Nat) ≤ 1
      omega
    · show 1 + (List.range' (next + 1) (cap - 1)).length = 0 + (List.range' next cap).length
      rw [List.length_range', List.length_range']
      omega
    · intro e he
      have he' : e ∈ List.range' (next + 1) (cap - 1) := he
      show e ∈ List.range' next cap
      rw [List.mem_range'_1] at he' ⊢
      omega
    · show (List.range' (next + 1) (cap - 1)).Nodup
      exact List.nodup_range' ..
    · show (List.range' next cap).Nodup
      exact List.nodup_range' ..
    · intro e he
      have he' : e ∈ List.range' next cap := he
      rw [List.mem_range'_1] at he'
      omega
  · intro x
    constructor
    · rintro ⟨hx1, hx2⟩
      rw [List.mem_range'_1] at hx1
      rw [List.mem_range'_1] at hx2
      omega
    · rintro rfl
      constructor
      · rw [List.mem_range'_1]
        omega
      · rw [List.mem_range'_1]
        omega

theorem kleINV_step (s : KleSys) (op : KleOp) (h : kleINV s) : kleINV (kle_sys_step s op) := by
  obtain ⟨hok, hdisj, hcap, hnd, hiff⟩ := h
  cases op with
  | alloc =>
      show kleINV ⟨(cn_kle_alloc s.cache).1, (cn_kle_alloc s.cache).2 :: s.linked⟩
      cases halloc : kle_alloc_pages s.cache.kc_pages with
      | some pr =>
          obtain ⟨ps', e⟩ := pr
          rw [show cn_kle_alloc s.cache = ({ s.cache with kc_pages := ps' }, e) from by
            simp only [cn_kle_alloc, halloc]]
          obtain ⟨a1, a2, a3, a4, a5⟩ :=
            kle_alloc_pages_spec s.cache.kc_next s.cache.kc_pages ps' e halloc hok hdisj
          refine ⟨a1, ?_, hcap, ?_, ?_⟩
          · show pagesDisj ps'
            unfold pagesDisj
            rw [a2]
            exact hdisj
          · refine List.nodup_cons.mpr ⟨?_, hnd⟩
            intro hmem
            exact a3 ((hiff e).mp hmem)
          · intro x
            constructor
            · intro hx
              rcases List.mem_cons.mp hx with rfl | hx'
              · exact a4
              · by_cases hxe : x = e
                · subst hxe
                  exact a4
                · exact (a5 x hxe).mp ((hiff x).mp hx')
            · intro hx
              by_cases hxe : x = e
              · subst hxe
                exact List.mem_cons_self ..
              · exact List.mem_cons_of_mem _ ((hiff x).mpr ((a5 x hxe).mpr hx))
      | none =>
          rw [show cn_kle_alloc s.cache =
              ({ kc_npages := s.cache.kc_npages + 1
                 kc_pages := { kh_all := List.range' s.cache.kc_next s.cache.kc_cap
                               kh_entries := List.range' (s.cache.kc_next + 1) (s.cache.kc_cap - 1)
                               kh_nallocs := 1
                               kh_nfrees := 0 } :: s.cache.kc_pages
                 kc_next := s.cache.kc_next + s.cache.kc_cap
                 kc_cap := s.cache.kc_cap }, s.cache.kc_next) from by
            simp only [cn_kle_alloc, halloc]]
          obtain ⟨hPok, hPlive⟩ := kle_new_page_ok s.cache.kc_next s.cache.kc_cap hcap
          refine ⟨?_, ?_, hcap, ?_, ?_⟩
          · intro q hq
            rcases List.mem_cons.mp hq with hqp | hq'
            · rw [hqp]
              exact hPok
            · exact pageOK_mono s.cache.kc_next (s.cache.kc_next + s.cache.kc_cap)
                (by omega) q (hok q hq')
          · show pagesDisj (_ :: s.cache.kc_pages)
            unfold pagesDisj
            rw [List.map_cons, List.pairwise_cons]
            constructor
            · intro b hb x hxP hxb
              obtain ⟨q, hq, hqall⟩ := List.mem_map.mp hb
              have hx1 : s.cache.kc_next ≤ x := by
                have := (List.mem_range'_1.mp hxP).1
                omega
              have hx2 : x < s.cache.kc_next := by
                have := (hok q hq).2.2.2.2.2 x (by rw [hqall]; exact hxb)
                omega
              omega
            · exact hdisj
          · refine List.nodup_cons.mpr ⟨?_, hnd⟩
            intro hmem
            obtain ⟨q, hq, hqa, _⟩ := (hiff _).mp hmem
            have := (hok q hq).2.2.2.2.2 _ hqa
            omega
          · intro x
            constructor
            · intro hx
              rcases List.mem_cons.mp hx with rfl | hx'
              · exact ⟨_, List.mem_cons_self .., (hPlive s.cache.kc_next).mpr rfl⟩
              · obtain ⟨q, hq, hqa, hqe⟩ := (hiff x).mp hx'
                exact ⟨q, List.mem_cons_of_mem _ hq, hqa, hqe⟩
            · rintro ⟨q, hq, hqa, hqe⟩
              rcases List.mem_cons.mp hq with hqp | hq'
              · rw [hqp] at hqa hqe
                have hx : x = s.cache.kc_next := (hPlive x).mp ⟨hqa, hqe⟩
                rw [hx]
                exact List.mem_cons_self ..
              · exact List.mem_cons_of_mem _ ((hiff x).mpr ⟨q, hq', hqa, hqe⟩)
  | free e =>
      by_cases hmem : e ∈ s.linked
      · rw [show kle_sys_step s (.free e) = ⟨cn_kle_free s.cache e, s.linked.erase e⟩ from by
          simp only [kle_sys_step, if_pos hmem]]
        obtain ⟨f1, f2, f3, f4⟩ :=
          kle_free_pages_spec s.cache.kc_next s.cache.kc_pages e hok hdisj
        refine ⟨f1, ?_, hcap, List.Nodup.erase _ hnd, ?_⟩
        · show pagesDisj (kle_free_pages e s.cache.kc_pages)
          unfold pagesDisj
          rw [f2]
          exact hdisj
        · intro x
          rw [List.Nodup.mem_erase_iff hnd]
          constructor
          · rintro ⟨hxe, hx⟩
            exact (f4 x hxe).mp ((hiff x).mp hx)
          · intro hx
            by_cases hxe : x = e
            · subst hxe
              exact absurd hx f3
            · exact ⟨hxe, (hiff x).mpr ((f4 x hxe).mpr hx)⟩
      · rw [show kle_sys_step s (.free e) = s from by simp only [kle_sys_step, if_neg hmem]]
        exact ⟨hok, hdisj, hcap, hnd, hiff⟩

theorem kleINV_run (cap : Nat) (ops : List KleOp) : kleINV (kle_sys_run cap ops) := by
  suffices h : ∀ s, kleINV s → kleINV (ops.foldl kle_sys_step s) by
    refine h ⟨kle_cache_init cap, []⟩ ?_
    refine ⟨fun p hp => absurd hp (by simp [kle_cache_init]), ?_, by simp [kle_cache_init], ?_, ?_⟩
    · show List.Pairwise _ (([] : List cn_kle_hdr).map _)
      simp [kle_cache_init]
    · exact List.nodup_nil
    · intro e
      constructor
      · intro he
        exact absurd he (by simp)
      · rintro ⟨q, hq, _, _⟩
        exact absurd hq (by simp [kle_cache_init])
  induction ops with
  | nil => intro s hs; exact hs
  | cons op ops ih =>
      intro s hs
      exact ih _ (kleINV_step s op hs)

theorem length_filter_not_mem :
    ∀ (f l : List Nat), l.Nodup → f.Nodup → (∀ x ∈ f, x ∈ l) →
      (l.filter (fun x => decide (x ∉ f))).length + f.length = l.length := by
  intro f
  induction f with
  | nil =>
      intro l hl _ _
      have hself : l.filter (fun x => decide (x ∉ ([] : List Nat))) = l := by
        refine List.filter_eq_self.mpr ?_
        intro a _
        simp
      rw [hself]
      simp
  | cons a f' ih =>
      intro l hl hf hsub
      have ha : a ∈ l := hsub a (List.mem_cons_self ..)
      have hndf' : f'.Nodup := (List.nodup_cons.mp hf).2
      have haf' : a ∉ f' := (List.nodup_cons.mp hf).1
      have hl' : (l.erase a).Nodup := hl.erase a
      have hanotin : a ∉ l.erase a := by
        intro hx
        exact absurd ((List.Nodup.mem_erase_iff hl).mp hx).1 (by simp)
      have hsub' : ∀ x ∈ f', x ∈ l.erase a := by
        intro x hx
        have hxl : x ∈ l := hsub x (List.mem_cons_of_mem _ hx)
        have hxa : x ≠ a := fun he => haf' (he ▸ hx)
        exact (List.Nodup.mem_erase_iff hl).mpr ⟨hxa, hxl⟩
      have hperm : List.Perm l (a :: l.erase a) := List.perm_cons_erase ha
      have hflen : (l.filter (fun x => decide (x ∉ a :: f'))).length =
          ((a :: l.erase a).filter (fun x => decide (x ∉ a :: f'))).length :=
        (hperm.filter _).length_eq
      have hstep : (a :: l.erase a).filter (fun x => decide (x ∉ a :: f')) =
          (l.erase a).filter (fun x => decide (x ∉ a :: f')) := by
        rw [List.filter_cons]
        simp
      have hcongr : (l.erase a).filter (fun x => decide (x ∉ a :: f')) =
          (l.erase a).filter (fun x => decide (x ∉ f')) := by
        refine List.filter_congr ?_
        intro x hx
        have hxa : x ≠ a := fun he => hanotin (he ▸ hx)
        simp [hxa]
      have hrec := ih (l.erase a) hl' hndf' hsub'
      have hlen : l.length = (l.erase a).length + 1 := by
        rw [hperm.length_eq]
        simp
      rw [hflen, hstep, hcongr]
      simp only [List.length_cons]
      omega

/-- C7: after any sequence of allocate/free operations (a free targets a
currently linked entry; `M ≤ N` is automatic since only live entries can
be freed), every page of the entry cache satisfies
`kh_nallocs ≥ kh_nfrees`, and `kh_nallocs - kh_nfrees` equals exactly
the number of that page's live entries — the entries currently linked
into node kvset lists that originated from the page.  The live entries
are enumerable (`kle_live` lists them, without duplicates) and match the
linked entries one-for-one: every live entry of every page is linked,
and every linked entry is live in one of the pages. -/
theorem c7_kle_arena_accounting (cap : Nat) (ops : List KleOp) :
    (kle_sys_run cap ops).linked.Nodup ∧
    (∀ e ∈ (kle_sys_run cap ops).linked,
      liveIn (kle_sys_run cap ops).cache.kc_pages e) ∧
    (∀ p ∈ (kle_sys_run cap ops).cache.kc_pages,
      p.kh_nfrees ≤ p.kh_nallocs ∧
      p.kh_nallocs - p.kh_nfrees = (kle_live p).length ∧
      (kle_live p).Nodup ∧
      (∀ e ∈ kle_live p, e ∈ (kle_sys_run cap ops).linked)) := by
  obtain ⟨hok, hdisj, hcap, hnd, hiff⟩ := kleINV_run cap ops
  refine ⟨hnd, ?_, ?_⟩
  · intro e he
    exact (hiff e).mp he
  · intro p hp
    obtain ⟨h1, h2, h3, h4, h5, h6⟩ := hok p hp
    have hfl := length_filter_not_mem p.kh_entries p.kh_all h5 h4 h3
    refine ⟨h1, ?_, ?_, ?_⟩
    · show p.kh_nallocs - p.kh_nfrees =
        (p.kh_all.filter (fun e => decide (e ∉ p.kh_entries))).length
      omega
    · exact List.Nodup.filter _ h5
    · intro e he
      rw [kle_live, List.mem_filter] at he
      refine (hiff e).mpr ⟨p, hp, he.1, ?_⟩
      simpa using he.2

theorem c7_kle_arena_accounting_witness :
    (⟨[0, 1], [0], 2, 1⟩ : cn_kle_hdr) ∈
      (kle_sys_run 1 [KleOp.alloc, KleOp.alloc, KleOp.free 0]).cache.kc_pages ∧
    (⟨[0, 1], [0], 2, 1⟩ : cn_kle_hdr).kh_nallocs -
      (⟨[0, 1], [0], 2, 1⟩ : cn_kle_hdr).kh_nfrees =
      (kle_live ⟨[0, 1], [0], 2, 1⟩).length ∧
    ∀ e ∈ kle_live (⟨[0, 1], [0], 2, 1⟩ : cn_kle_hdr),
      e ∈ (kle_sys_run 1 [KleOp.alloc, KleOp.alloc, KleOp.free 0]).linked := by
  have hp : (⟨[0, 1], [0], 2, 1⟩ : cn_kle_hdr) ∈
      (kle_sys_run 1 [KleOp.alloc, KleOp.alloc, KleOp.free 0]).cache.kc_pages := by
    decide
  have h := (c7_kle_arena_accounting 1 [KleOp.alloc, KleOp.alloc, KleOp.free 0]).2.2
    ⟨[0, 1], [0], 2, 1⟩ hp
  exact ⟨hp, h.2.1, h.2.2.2⟩
